import Mathlib

/-!
Shallow embedding of the Picnic3 core (`src/sig/picnic/external/picnic3_impl.c`)
and verification of its specification.

Byte strings are `List Nat` with every stored byte kept below 256.  The
delegated primitives of §6 of the specification (hash/XOF, seed tree, Merkle
tree, LowMC) are consumed through an abstract `Prims` interface, exactly as the
C file consumes them through headers; their contracts enter the theorems as
hypotheses.  The four-way interleaved hash variants are modelled per lane: §6
describes them as four independent outputs from four independent input streams
and §9 states that scalar hashing with the same absorb order per lane is
conforming, so `commit_x4`/`commit_h_x4`/`commit_v_x4`/`hash_x4` coincide with
four scalar invocations.  Heap allocation failures are not modelled.
-/

namespace Picnic3

/-- Byte strings are lists of naturals; all writes keep values below 256. -/
abbrev Bytes := List Nat

/-- Read `len` bytes from a buffer, as C reads a fixed-size region through a
pointer (bytes past the end of the modelled buffer read as 0). -/
def readBytes (buf : Bytes) (len : Nat) : Bytes :=
  (List.range len).map (fun i => buf.getD i 0)

/-- Pour an abstract byte sequence into a fixed-size buffer of `len` bytes:
truncate, zero-pad, and reduce every byte mod 256. -/
def fitBytes (len : Nat) (xs : Bytes) : Bytes :=
  ((xs ++ List.replicate len 0).take len).map (· % 256)

/-- `hash_update_uint16_le`: a 16-bit value absorbed little-endian. -/
def u16le (v : Nat) : Bytes := [v % 256, v / 256 % 256]

/-- `numBytes(k) = (k + 7) >> 3` (picnic3_impl.c:38). -/
def numBytes (numBits : Nat) : Nat := (numBits + 7) / 8

/-- Modelled from the spec: `getBit` of the bit I/O primitives (io.h, not under
src/); §9: bit packing is little-endian within bytes (LSB = bit 0). -/
def getBit (data : Bytes) (bitNumber : Nat) : Nat :=
  data.getD (bitNumber / 8) 0 / 2 ^ (bitNumber % 8) % 2

/-- Modelled from the spec: `setBit` of the bit I/O primitives (io.h, not under
src/), writing bit `bitNumber` (LSB-first within bytes) to `b`. -/
def setBit (data : Bytes) (bitNumber : Nat) (b : Nat) : Bytes :=
  let byte := data.getD (bitNumber / 8) 0
  let cleared := byte - byte / 2 ^ (bitNumber % 8) % 2 * 2 ^ (bitNumber % 8)
  data.set (bitNumber / 8) (cleared + b % 2 * 2 ^ (bitNumber % 8))

/-- Modelled from the spec: `check_padding_bits(byte, diff)` (io.h, not under
src/) is nonzero exactly when one of the high `diff` bits of `byte` is set
(§4.1: the padding bits are the high `byteLen·8 − bitLen` bits of the last
byte). -/
def check_padding_bits (byte diff : Nat) : Nat := byte % 256 / 2 ^ (8 - diff)

/-- `arePaddingBitsZero(data, byteLength, bitLength)` (picnic3_impl.c:794). -/
def arePaddingBitsZero (data : Bytes) (byteLength bitLength : Nat) : Bool :=
  check_padding_bits (data.getD (byteLength - 1) 0) (byteLength * 8 - bitLength) == 0

/-- `xor_byte_array(out, in1, in2, length)` (picnic3_impl.c:193). -/
def xor_byte_array (in1 in2 : Bytes) (length : Nat) : Bytes :=
  (List.range length).map (fun i => in1.getD i 0 ^^^ in2.getD i 0)

/-- `contains(list, len, value)` (picnic3_impl.c:199); the callers always pass
the full length of the list. -/
def contains (list : List Nat) (value : Nat) : Bool := list.contains value

/-- `indexOf(list, len, value)` (picnic3_impl.c:208); its callers guarantee the
value is present. -/
def indexOf (list : List Nat) (value : Nat) : Nat := list.findIdx (· == value)

/-- Fuel-driven ceiling base-2 logarithm (kernel-reducible). -/
def clog2Fuel : Nat → Nat → Nat
  | 0, _ => 0
  | fuel + 1, n => if n ≤ 1 then 0 else clog2Fuel fuel ((n + 1) / 2) + 1

/-- Modelled from the spec: `ceil_log2` (macros.h, not under src/): `⌈log₂ n⌉`
as used for the chunk widths `bC = ceil_log2(T)`, `bP = ceil_log2(N)` (§4.4).
`ceil_log2_eq_clog` below checks it against Mathlib's `Nat.clog 2`. -/
def ceil_log2 (n : Nat) : Nat := clog2Fuel n n

/-- `SALT_SIZE` is fixed at 32 bytes (§3). -/
def SALT_SIZE : Nat := 32

/-- The LowMC shape `(n, m, r)` of `params->lowmc` (§3). -/
structure LowMCShape where
  n : Nat
  m : Nat
  r : Nat
deriving DecidableEq

/-- The fields of `picnic_instance_t` used by picnic3_impl.c (§3). -/
structure Params where
  digest_size : Nat
  seed_size : Nat
  num_MPC_parties : Nat
  num_rounds : Nat
  num_opened_rounds : Nat
  input_output_size : Nat
  view_size : Nat
  lowmc : LowMCShape
deriving DecidableEq

/-- `randomTape_t` (§3): `N` tapes of `2·view_size` bytes, the parity scratch
buffer, the bit cursor `pos` and the `aux_bits` buffer.  (`aux_pos` is used
only inside the external `lowmc_compute_aux` and is not tracked.) -/
structure RandomTape where
  tape : List Bytes
  parity_tapes : Bytes
  pos : Nat
  aux_bits : Bytes
deriving DecidableEq

instance : Inhabited RandomTape := ⟨⟨[], [], 0, []⟩⟩

/-- `msgs_t` (§3): per-party transcripts, the bit cursor, and (verification
only) the unopened party index. -/
structure Msgs where
  msgs : List Bytes
  pos : Nat
  unopened : Option Nat
deriving DecidableEq

instance : Inhabited Msgs := ⟨⟨[], 0, none⟩⟩

/-- The delegated primitives of §6, consumed through an abstract interface. -/
structure Prims where
  /-- `hash_init(digestSize); absorb data; finalize; squeeze outLen`. -/
  hash : Nat → Bytes → Nat → Bytes
  /-- the `hash_init_prefix(digestSize, prefixByte)` variant. -/
  hashPfx : Nat → Nat → Bytes → Nat → Bytes
  /-- `generateSeeds(tree, leaves, root, salt, t)` followed by `getLeaves`. -/
  genLeaves : Nat → Bytes → Bytes → Nat → List Bytes
  /-- `revealSeeds(tree, hideList, hideLen, out, maxLen)`: the bytes written
  for the tree determined by `(leaves, root, salt, t)`. -/
  revealSeeds : Nat → Bytes → Bytes → Nat → List Nat → Bytes
  /-- `revealSeedsSize(leaves, hideList, hideLen)`; `none` models `SIZE_MAX`. -/
  revealSeedsSize : Nat → List Nat → Nat → Option Nat
  /-- `reconstructSeeds(tree, hideList, hideLen, data, dataLen, salt, t)`:
  `none` models a nonzero return, otherwise the leaves of the filled tree. -/
  reconstructSeeds : Nat → List Nat → Bytes → Bytes → Nat → Option (List Bytes)
  /-- `buildMerkleTree(tree, leaves, salt)` and the root `tree.nodes`. -/
  merkleRoot : List Bytes → Bytes → Bytes
  /-- `openMerkleTree(tree, missing, missingLen, &len)` on that tree. -/
  merkleOpen : List Bytes → Bytes → List Nat → Bytes
  /-- `openMerkleTreeSize(leaves, missing, missingLen)`; `none` is `SIZE_MAX`. -/
  merkleOpenSize : Nat → List Nat → Option Nat
  /-- `addMerkleNodes` of `info` at the missing positions followed by
  `verifyMerkleTree` against the partially known leaves (`none` entries are
  the missing ones), returning the root `tree.nodes` on success. -/
  merkleCheck : Nat → List (Option Bytes) → Bytes → List Nat → Bytes → Option Bytes
  /-- `lowmc_compute_aux(lowmc, key, tapes)`: the fixed AND-gate mask bits
  (to be poured into the `view_size`-byte `aux_bits` buffer) and the key
  masks written back through `mzd_to_char_array`. -/
  lowmcAux : Bytes → RandomTape → Bytes × Bytes
  /-- `simulateOnline(maskedKey, tapes, msgs, plaintext, pubKey)`: `none`
  models a nonzero return, otherwise the updated `msgs`. -/
  simOnline : Bytes → RandomTape → Msgs → Bytes → Bytes → Option Msgs

/-- `bitsToChunks(chunkLenBits, input, inputLen, chunks)` (picnic3_impl.c:230):
split the bits of `input` into `inputLen·8 / chunkLenBits` LSB-first chunks of
`chunkLenBits` bits; the guarded invalid cases yield no chunks. -/
def bitsToChunks (chunkLenBits : Nat) (input : Bytes) (inputLen : Nat) : List Nat :=
  if chunkLenBits = 0 ∨ inputLen * 8 < chunkLenBits then []
  else
    (List.range (inputLen * 8 / chunkLenBits)).map (fun i =>
      (List.range chunkLenBits).foldl
        (fun acc j => acc + getBit input (i * chunkLenBits + j) * 2 ^ j) 0)

/-- `appendUnique(list, value, position)` (picnic3_impl.c:249): append `value`
unless it is already present. -/
def appendUnique (list : List Nat) (value : Nat) : List Nat :=
  if list.contains value then list else list ++ [value]

/-- The inner `for` loop of one phase of `expandChallenge` over the chunk
values of the current hash buffer: values `< bound` are appended (through
`appendUnique` in Phase C, `dedup = true`; without deduplication in Phase P),
and the loop breaks as soon as the list holds `target` entries. -/
def chunkPass (bound target : Nat) (dedup : Bool) : List Nat → List Nat → List Nat
  | [], acc => acc
  | c :: rest, acc =>
    let acc' := if c < bound then (if dedup then appendUnique acc c else acc ++ [c]) else acc
    if acc'.length = target then acc' else chunkPass bound target dedup rest acc'

/-- The end-of-iteration rehash of `expandChallenge` (picnic3_impl.c:291):
`h ← squeeze_D(XOF(HASH_PREFIX_1 = 0x01 ‖ h))`. -/
def rehash (P : Prims) (pp : Params) (h : Bytes) : Bytes :=
  fitBytes pp.digest_size
    (P.hashPfx 1 pp.digest_size (readBytes h pp.digest_size) pp.digest_size)

/-- The outer `while` loop of one phase of `expandChallenge`, with explicit
fuel for the hash-dependent termination (the C loop simply runs until the list
is full).  Every executed iteration ends with the `rehash` of `h`, including
the iteration whose inner loop reached exactly `target` entries. -/
def challengePhase (P : Prims) (pp : Params) (bits bound target : Nat) (dedup : Bool) :
    Nat → Bytes → List Nat → Option (List Nat × Bytes)
  | 0, h, acc => if acc.length = target then some (acc, h) else none
  | fuel + 1, h, acc =>
    if acc.length = target then some (acc, h)
    else
      challengePhase P pp bits bound target dedup fuel (rehash P pp h)
        (chunkPass bound target dedup (bitsToChunks bits h pp.digest_size) acc)

/-- `expandChallenge(challengeC, challengeP, sigH, params)`
(picnic3_impl.c:264): Phase C fills `challengeC` with `ceil_log2(T)`-bit chunk
values through `appendUnique`, Phase P fills `challengeP` with
`ceil_log2(N)`-bit chunk values without deduplication, starting from the hash
buffer left by Phase C.  `none` models the C loop never terminating. -/
def expandChallenge (P : Prims) (pp : Params) (fuel : Nat) (sigH : Bytes) :
    Option (List Nat × List Nat) := do
  let h0 := readBytes sigH pp.digest_size
  let (cC, h1) ← challengePhase P pp (ceil_log2 pp.num_rounds) pp.num_rounds
    pp.num_opened_rounds true fuel h0 []
  let (cP, _) ← challengePhase P pp (ceil_log2 pp.num_MPC_parties) pp.num_MPC_parties
    pp.num_opened_rounds false fuel h1 []
  return (cC, cP)

/-- `getMissingLeavesList(challengeC, params)` (picnic3_impl.c:347): the rounds
not in `challengeC`, ascending. -/
def getMissingLeavesList (challengeC : List Nat) (pp : Params) : List Nat :=
  (List.range pp.num_rounds).filter (fun i => !contains challengeC i)

/-- The leaves of a seed tree produced by `generateSeeds`/`getLeaves`, poured
into `numLeaves` buffers of `seed_size` bytes. -/
def seedLeaves (P : Prims) (pp : Params) (numLeaves : Nat) (root salt : Bytes) (t : Nat) :
    List Bytes :=
  (List.range numLeaves).map (fun i =>
    fitBytes pp.seed_size ((P.genLeaves numLeaves root salt t).getD i []))

/-- The leaves of a seed tree filled by `reconstructSeeds`, poured into
`numLeaves` buffers of `seed_size` bytes (`none` models a nonzero return). -/
def reconstructLeaves (P : Prims) (pp : Params) (numLeaves : Nat) (hideList : List Nat)
    (data salt : Bytes) (t : Nat) : Option (List Bytes) :=
  (P.reconstructSeeds numLeaves hideList data salt t).map (fun ls =>
    (List.range numLeaves).map (fun i => fitBytes pp.seed_size (ls.getD i [])))

/-- `createRandomTapes(tapes, seeds, salt, t, params)` (picnic3_impl.c:42):
lane `j` of the four-way XOF absorbs `seed_j ‖ salt ‖ t(u16 LE) ‖ j(u16 LE)`
and squeezes `2·view_size` bytes into `tape[j]`.  `allocateRandomTape` is
modelled as zero-initializing the parity and aux buffers and the cursors. -/
def createRandomTapes (P : Prims) (pp : Params) (seeds : List Bytes) (salt : Bytes) (t : Nat) :
    RandomTape :=
  { tape := (List.range pp.num_MPC_parties).map (fun j =>
      fitBytes (2 * pp.view_size)
        (P.hash pp.digest_size
          (readBytes (seeds.getD j []) pp.seed_size ++ readBytes salt SALT_SIZE ++
            u16le t ++ u16le j)
          (2 * pp.view_size)))
    parity_tapes := List.replicate (2 * pp.view_size) 0
    pos := 0
    aux_bits := List.replicate pp.view_size 0 }

/-- `setAuxBits(tapes, input, params)` (picnic3_impl.c:218) on the last party's
tape: write the `r·n` bits of `input` at positions `n + 2·n·j + i`
(`j ∈ [0,r)` outer, `i ∈ [0,n)` inner, so bit `k` goes with `j = k / n`,
`i = k % n`). -/
def setAuxBits (pp : Params) (tapeLast input : Bytes) : Bytes :=
  (List.range (pp.lowmc.r * pp.lowmc.n)).foldl
    (fun acc k =>
      setBit acc (pp.lowmc.n + pp.lowmc.n * 2 * (k / pp.lowmc.n) + k % pp.lowmc.n)
        (getBit input k))
    tapeLast

/-- `computeAuxTape(tapes, input_masks, params)` (picnic3_impl.c:73): XOR all
tapes into the parity buffer, read the key from its first `input_output_size`
bytes, run the external `lowmc_compute_aux` with `pos = n` and a cleared
`aux_bits` buffer, and reset `pos` to 0.  Modelled from the spec for the
external `lowmc_compute_aux` (not under src/): per §4.1/§4.2 its only effect
on the tapes is to fix the last party's AND-gate mask bits, i.e. to write the
`aux_bits` it outputs into `tape[N-1]` at the positions used by `setAuxBits`
(which is documented as the inverse of the aux accumulator).  Returns the
updated tapes and the `input_masks` output. -/
def computeAuxTape (P : Prims) (pp : Params) (tapes : RandomTape) : RandomTape × Bytes :=
  let parity := tapes.tape.foldl
    (fun acc tp => xor_byte_array acc tp (2 * pp.view_size))
    (List.replicate (2 * pp.view_size) 0)
  let key := readBytes parity pp.input_output_size
  let res := P.lowmcAux key
    { tapes with parity_tapes := parity, pos := pp.lowmc.n,
                 aux_bits := List.replicate pp.view_size 0 }
  let aux := fitBytes pp.view_size res.1
  let last := pp.num_MPC_parties - 1
  ({ tape := tapes.tape.set last (setAuxBits pp (tapes.tape.getD last []) aux)
     parity_tapes := parity
     pos := 0
     aux_bits := aux },
   fitBytes pp.input_output_size res.2)

/-- `commit(digest, seed, aux, salt, t, j, params)` (picnic3_impl.c:103):
`H(seed ‖ [aux] ‖ salt ‖ t ‖ j)` squeezed to `digest_size` bytes; the `x4`
variant is the same per lane without aux. -/
def commit (P : Prims) (pp : Params) (seed : Bytes) (aux : Option Bytes) (salt : Bytes)
    (t j : Nat) : Bytes :=
  fitBytes pp.digest_size
    (P.hash pp.digest_size
      (readBytes seed pp.seed_size ++
        (match aux with
         | some a => readBytes a pp.view_size
         | none => []) ++
        readBytes salt SALT_SIZE ++ u16le t ++ u16le j)
      pp.digest_size)

/-- `commit_h(digest, C, params)` (picnic3_impl.c:137): absorb the `N` party
commitments in ascending order, squeeze `digest_size` bytes. -/
def commit_h (P : Prims) (pp : Params) (C : List Bytes) : Bytes :=
  fitBytes pp.digest_size
    (P.hash pp.digest_size
      ((List.range pp.num_MPC_parties).flatMap (fun i => readBytes (C.getD i []) pp.digest_size))
      pp.digest_size)

/-- `commit_v(digest, input, msgs, params)` (picnic3_impl.c:163): absorb the
input and the first `numBytes(msgs.pos)` bytes of each party's transcript. -/
def commit_v (P : Prims) (pp : Params) (input : Bytes) (m : Msgs) : Bytes :=
  fitBytes pp.digest_size
    (P.hash pp.digest_size
      (readBytes input pp.input_output_size ++
        (List.range pp.num_MPC_parties).flatMap
          (fun i => readBytes (m.msgs.getD i []) (numBytes m.pos)))
      pp.digest_size)

/-- The digest part of `HCP` (picnic3_impl.c:321): absorb
`Ch[0..T) ‖ hCv ‖ salt ‖ pubKey ‖ plaintext ‖ message` and squeeze
`digest_size` bytes (the subsequent `expandChallenge` call is kept separate). -/
def HCP (P : Prims) (pp : Params) (Ch : List Bytes) (hCv salt pubKey plaintext message : Bytes) :
    Bytes :=
  fitBytes pp.digest_size
    (P.hash pp.digest_size
      ((List.range pp.num_rounds).flatMap (fun t => readBytes (Ch.getD t []) pp.digest_size) ++
        readBytes hCv pp.digest_size ++ readBytes salt SALT_SIZE ++
        readBytes pubKey pp.input_output_size ++ readBytes plaintext pp.input_output_size ++
        message)
      pp.digest_size)

/-- `computeSaltAndRootSeed` (picnic3_impl.c:584): squeeze
`seed_size + SALT_SIZE` bytes of
`H(privateKey ‖ message ‖ pubKey ‖ plaintext ‖ n(u16 LE))`. -/
def computeSaltAndRootSeed (P : Prims) (pp : Params)
    (privateKey pubKey plaintext message : Bytes) : Bytes :=
  fitBytes (pp.seed_size + SALT_SIZE)
    (P.hash pp.digest_size
      (readBytes privateKey pp.input_output_size ++ message ++
        readBytes pubKey pp.input_output_size ++ readBytes plaintext pp.input_output_size ++
        u16le pp.lowmc.n)
      (pp.seed_size + SALT_SIZE))

/-- One proof entry `proof2_t` (§3).  The C length fields (`seedInfoLen`) are
the lengths of the corresponding lists. -/
structure Proof2 where
  seedInfo : Bytes
  aux : Bytes
  input : Bytes
  msgs : Bytes
  C : Bytes
  unOpenedIndex : Nat
deriving DecidableEq

instance : Inhabited Proof2 := ⟨⟨[], [], [], [], [], 0⟩⟩

/-- `signature2_t` (§3).  `proofs` has one entry per round, `some` exactly at
the opened rounds; the C length fields are the lengths of the lists. -/
structure Signature2 where
  challenge : Bytes
  salt : Bytes
  iSeedInfo : Bytes
  cvInfo : Bytes
  challengeC : List Nat
  challengeP : List Nat
  proofs : List (Option Proof2)
deriving DecidableEq

deriving instance DecidableEq for Except

/-- `allocateMsgs` (picnic3_types.c, not under src/), modelled as
zero-initialized `view_size`-byte transcript buffers with cleared cursor. -/
def msgs0 (pp : Params) : Msgs :=
  { msgs := List.replicate pp.num_MPC_parties (List.replicate pp.view_size 0)
    pos := 0
    unopened := none }

/-- `simulateOnline` with its outputs poured into the fixed-size transcript
buffers (`N` buffers of `view_size` bytes). -/
def simOnlineB (P : Prims) (pp : Params) (maskedKey : Bytes) (tapes : RandomTape) (m : Msgs)
    (plaintext pubKey : Bytes) : Option Msgs :=
  (P.simOnline maskedKey tapes m plaintext pubKey).map (fun out =>
    { msgs := (List.range pp.num_MPC_parties).map (fun j => fitBytes pp.view_size (out.msgs.getD j []))
      pos := out.pos
      unopened := out.unopened })

/-- The inputs of one `sign_picnic3` invocation (picnic3_impl.c:612), together
with the primitives, the parameter set and the fuel for `expandChallenge`. -/
structure SignCtx where
  P : Prims
  pp : Params
  fuel : Nat
  privateKey : Bytes
  pubKey : Bytes
  plaintext : Bytes
  message : Bytes

/-- `computeSaltAndRootSeed` output inside `initialize_seeds_tree`
(picnic3_impl.c:601). -/
def SignCtx.saltAndRoot (c : SignCtx) : Bytes :=
  computeSaltAndRootSeed c.P c.pp c.privateKey c.pubKey c.plaintext c.message

/-- `sig->salt`: the first `SALT_SIZE` bytes of `saltAndRoot`. -/
def SignCtx.salt (c : SignCtx) : Bytes := readBytes c.saltAndRoot SALT_SIZE

/-- The root seed: the remaining `seed_size` bytes of `saltAndRoot`. -/
def SignCtx.rootSeed (c : SignCtx) : Bytes := c.saltAndRoot.drop SALT_SIZE

/-- `iSeeds = getLeaves(&iSeedsTree)` (picnic3_impl.c:624): the `T` leaves of
the initial seed tree built from the root seed and salt with round index 0. -/
def SignCtx.iSeeds (c : SignCtx) : List Bytes :=
  seedLeaves c.P c.pp c.pp.num_rounds c.rootSeed c.salt 0

/-- The `N` per-party seeds of round `t` (picnic3_impl.c:653). -/
def SignCtx.seeds (c : SignCtx) (t : Nat) : List Bytes :=
  seedLeaves c.P c.pp c.pp.num_MPC_parties (c.iSeeds.getD t []) c.salt t

/-- `tapes[t]` right after `createRandomTapes` (picnic3_impl.c:657). -/
def SignCtx.tapesPre (c : SignCtx) (t : Nat) : RandomTape :=
  createRandomTapes c.P c.pp (c.seeds t) c.salt t

/-- The result of `computeAuxTape(&tapes[t], inputs[t], params)`
(picnic3_impl.c:659). -/
def SignCtx.auxPair (c : SignCtx) (t : Nat) : RandomTape × Bytes :=
  computeAuxTape c.P c.pp (c.tapesPre t)

/-- `tapes[t]` after the aux phase. -/
def SignCtx.tapes (c : SignCtx) (t : Nat) : RandomTape := (c.auxPair t).1

/-- `inputs[t]` as emitted by `computeAuxTape` (the key masks). -/
def SignCtx.inputMask (c : SignCtx) (t : Nat) : Bytes := (c.auxPair t).2

/-- `C[t].hashes[j]` (picnic3_impl.c:661): every party commits to its seed;
the last party's commitment additionally absorbs `tapes[t].aux_bits`. -/
def SignCtx.C (c : SignCtx) (t j : Nat) : Bytes :=
  if j = c.pp.num_MPC_parties - 1 then
    commit c.P c.pp ((c.seeds t).getD j []) (some (c.tapes t).aux_bits) c.salt t j
  else
    commit c.P c.pp ((c.seeds t).getD j []) none c.salt t j

/-- `inputs[t]` after the masking loop (picnic3_impl.c:675): XOR the private
key in, then zero the bits from `n` to `input_output_size·8`. -/
def SignCtx.maskedKey (c : SignCtx) (t : Nat) : Bytes :=
  (List.range' c.pp.lowmc.n (c.pp.input_output_size * 8 - c.pp.lowmc.n)).foldl
    (fun acc i => setBit acc i 0)
    (xor_byte_array (c.inputMask t) c.privateKey c.pp.input_output_size)

/-- The `simulateOnline` call of round `t` (picnic3_impl.c:682). -/
def SignCtx.simResult (c : SignCtx) (t : Nat) : Option Msgs :=
  simOnlineB c.P c.pp (c.maskedKey t) (c.tapes t) (msgs0 c.pp) c.plaintext c.pubKey

/-- `msgs[t]` after the online phase. -/
def SignCtx.M (c : SignCtx) (t : Nat) : Msgs := (c.simResult t).getD (msgs0 c.pp)

/-- `Ch.hashes[t]` (picnic3_impl.c:692): four-way batched `commit_h`, i.e.
`commit_h` of round `t`'s party commitments per lane. -/
def SignCtx.Ch (c : SignCtx) (t : Nat) : Bytes :=
  commit_h c.P c.pp ((List.range c.pp.num_MPC_parties).map (c.C t))

/-- `Cv.hashes[t]`: `commit_v` over `inputs[t]` and `msgs[t]`. -/
def SignCtx.Cv (c : SignCtx) (t : Nat) : Bytes :=
  commit_v c.P c.pp (c.maskedKey t) (c.M t)

/-- The root `treeCv.nodes` of the Merkle tree over `Cv` (picnic3_impl.c:708). -/
def SignCtx.rootCv (c : SignCtx) : Bytes :=
  c.P.merkleRoot ((List.range c.pp.num_rounds).map c.Cv) c.salt

/-- `sig->challenge` as squeezed by `HCP` (picnic3_impl.c:713). -/
def SignCtx.challenge (c : SignCtx) : Bytes :=
  HCP c.P c.pp ((List.range c.pp.num_rounds).map c.Ch) c.rootCv c.salt c.pubKey c.plaintext
    c.message

/-- `sig->cvInfo = openMerkleTree(&treeCv, missingLeaves, …)`
(picnic3_impl.c:721). -/
def SignCtx.cvInfo (c : SignCtx) (cC : List Nat) : Bytes :=
  c.P.merkleOpen ((List.range c.pp.num_rounds).map c.Cv) c.salt (getMissingLeavesList cC c.pp)

/-- `sig->iSeedInfo = revealSeeds(&iSeedsTree, challengeC, …)`
(picnic3_impl.c:733). -/
def SignCtx.iSeedInfo (c : SignCtx) (cC : List Nat) : Bytes :=
  c.P.revealSeeds c.pp.num_rounds c.rootSeed c.salt 0 cC

/-- `proofs[t]` for an opened round `t` (picnic3_impl.c:740): seed-tree opening
hiding `challengeP[idxOf t]`, the aux bits when that party is not the last,
the masked input, the unopened party's transcript, and the recomputed
commitment of the unopened party.  `allocateProof2` is modelled as
zero-initializing the `aux` buffer. -/
def SignCtx.proof (c : SignCtx) (cC cP : List Nat) (t : Nat) : Proof2 :=
  let u := cP.getD (indexOf cC t) 0
  { seedInfo := c.P.revealSeeds c.pp.num_MPC_parties (c.iSeeds.getD t []) c.salt t [u]
    aux := if u ≠ c.pp.num_MPC_parties - 1 then readBytes (c.tapes t).aux_bits c.pp.view_size
           else List.replicate c.pp.view_size 0
    input := c.maskedKey t
    msgs := readBytes ((c.M t).msgs.getD u []) c.pp.view_size
    C := if u = c.pp.num_MPC_parties - 1 then
           commit c.P c.pp ((c.seeds t).getD u []) (some (c.tapes t).aux_bits) c.salt t u
         else
           commit c.P c.pp ((c.seeds t).getD u []) none c.salt t u
    unOpenedIndex := u }

/-- The signature assembled by `sign_picnic3` for challenge lists `(cC, cP)`. -/
def SignCtx.sig (c : SignCtx) (cC cP : List Nat) : Signature2 :=
  { challenge := c.challenge
    salt := c.salt
    iSeedInfo := c.iSeedInfo cC
    cvInfo := c.cvInfo cC
    challengeC := cC
    challengeP := cP
    proofs := (List.range c.pp.num_rounds).map (fun t =>
      if contains cC t then some (c.proof cC cP t) else none) }

/-- `sign_picnic3` (picnic3_impl.c:612).  A failing `simulateOnline` aborts
with −1 before the challenge is derived; `none` models a non-terminating
`expandChallenge`.  Allocation failures are not modelled. -/
def sign_picnic3 (P : Prims) (pp : Params) (fuel : Nat)
    (privateKey pubKey plaintext message : Bytes) : Option (Except Int Signature2) :=
  let c : SignCtx := ⟨P, pp, fuel, privateKey, pubKey, plaintext, message⟩
  if (List.range pp.num_rounds).all (fun t => (c.simResult t).isSome) then
    match expandChallenge P pp fuel c.challenge with
    | none => none
    | some (cC, cP) => some (.ok (c.sig cC cP))
  else some (.error (-1))

/-- The bytes `serializeSignature2` emits for the proof of one opened round
(picnic3_impl.c:961): `seedInfo ‖ aux? ‖ input ‖ msgs ‖ C`, where `aux` is
written exactly when `challengeP[idxOf t] ≠ N−1`. -/
def serializeProofBlock (pp : Params) (cC cP : List Nat) (t : Nat) (pr : Proof2) : Bytes :=
  pr.seedInfo ++
  (if cP.getD (indexOf cC t) 0 ≠ pp.num_MPC_parties - 1 then readBytes pr.aux pp.view_size
   else []) ++
  readBytes pr.input pp.input_output_size ++ readBytes pr.msgs pp.view_size ++
  readBytes pr.C pp.digest_size

/-- `required_signature_size(sig, params)` (picnic3_impl.c:919). -/
def required_signature_size (pp : Params) (sig : Signature2) : Nat :=
  pp.digest_size + SALT_SIZE + sig.iSeedInfo.length + sig.cvInfo.length +
  ((List.range pp.num_rounds).filter (fun t => contains sig.challengeC t)).foldl
    (fun acc t =>
      acc + ((sig.proofs.getD t none).getD default).seedInfo.length +
        (if sig.challengeP.getD (indexOf sig.challengeC t) 0 ≠ pp.num_MPC_parties - 1 then
          pp.view_size
         else 0) +
        (pp.digest_size + pp.input_output_size + pp.view_size))
    0

/-- `serializeSignature2(sig, sigBytes, sigBytesLen, params)`
(picnic3_impl.c:942), as the byte string written:
`challenge ‖ salt ‖ iSeedInfo ‖ cvInfo ‖ proofs` with the opened rounds in
ascending order.  (The buffer-length precheck lives in `impl_sign_picnic3`.) -/
def serializeSignature2 (pp : Params) (sig : Signature2) : Bytes :=
  readBytes sig.challenge pp.digest_size ++ readBytes sig.salt SALT_SIZE ++
  sig.iSeedInfo ++ sig.cvInfo ++
  ((List.range pp.num_rounds).filter (fun t => contains sig.challengeC t)).flatMap
    (fun t => serializeProofBlock pp sig.challengeC sig.challengeP t
      ((sig.proofs.getD t none).getD default))

/-- One proof entry of the wire as consumed by `deserializeSignature2`
(picnic3_impl.c:870): `seedInfoLen` bytes of seed opening, `view_size` bytes
of aux exactly when `hasAux` (rejecting nonzero padding beyond `3·r·m` bits
with −1), `input_output_size` bytes of input (padding checked against `n`),
`view_size` bytes of transcript (padding checked against `3·r·m`) and
`digest_size` bytes of commitment; returns the entry and the remaining bytes.
`deserializeSignature2` never writes `unOpenedIndex`; `allocateProof2` is
modelled as zero-initializing it and the `aux` buffer. -/
def parseAux (pp : Params) (hasAux : Bool) (s1 : Bytes) : Except Int (Bytes × Bytes) :=
  match hasAux with
  | false => .ok (List.replicate pp.view_size 0, s1)
  | true =>
    if !arePaddingBitsZero (s1.take pp.view_size) pp.view_size
        (3 * pp.lowmc.r * pp.lowmc.m) then .error (-1)
    else .ok (s1.take pp.view_size, s1.drop pp.view_size)

def parseOneProof (pp : Params) (hasAux : Bool) (sLen : Nat) (s : Bytes) :
    Except Int (Proof2 × Bytes) :=
  let seedInfo := s.take sLen
  match parseAux pp hasAux (s.drop sLen) with
  | .error e => .error e
  | .ok (aux, s2) =>
    let input := s2.take pp.input_output_size
    if !arePaddingBitsZero input pp.input_output_size pp.lowmc.n then .error (-1)
    else
      let s3 := s2.drop pp.input_output_size
      let msgs := s3.take pp.view_size
      let s4 := s3.drop pp.view_size
      if !arePaddingBitsZero msgs pp.view_size (3 * pp.lowmc.r * pp.lowmc.m) then .error (-1)
      else
        .ok (⟨seedInfo, aux, input, msgs, s4.take pp.digest_size, 0⟩, s4.drop pp.digest_size)

/-- The proof-section loop of `deserializeSignature2` over the opened rounds in
ascending order; aux is present exactly when `challengeP[idxOf t] ≠ N−1`. -/
def parseProofs (pp : Params) (cC cP : List Nat) (sLen : Nat) :
    List Nat → Bytes → List (Option Proof2) → Except Int (List (Option Proof2) × Bytes)
  | [], s, acc => .ok (acc, s)
  | t :: rest, s, acc =>
    match parseOneProof pp (cP.getD (indexOf cC t) 0 != pp.num_MPC_parties - 1) sLen s with
    | .error e => .error e
    | .ok (pr, s') => parseProofs pp cC cP sLen rest s' (acc.set t (some pr))

/-- The total byte length `deserializeSignature2` expects, derived from the
recomputed challenge lists and the size functions only (picnic3_impl.c:801,
814–850); `none` when a size function reports `SIZE_MAX`. -/
def expectedSigLength (P : Prims) (pp : Params) (cC cP : List Nat) : Option Nat := do
  let iLen ← P.revealSeedsSize pp.num_rounds cC pp.num_opened_rounds
  let cvLen ← P.merkleOpenSize pp.num_rounds (getMissingLeavesList cC pp)
  let sLen ← P.revealSeedsSize pp.num_MPC_parties [0] 1
  return pp.digest_size + SALT_SIZE + iLen + cvLen +
    ((List.range pp.num_rounds).filter (fun t => contains cC t)).foldl
      (fun acc t =>
        acc + sLen + pp.digest_size + pp.input_output_size + pp.view_size +
          (if cP.getD (indexOf cC t) 0 ≠ pp.num_MPC_parties - 1 then pp.view_size else 0))
      0

/-- `deserializeSignature2(sig, sigBytes, sigBytesLen, params)`
(picnic3_impl.c:798).  `challengeC`, `challengeP` and all lengths are
recomputed, never read from the wire; a length mismatch or a `SIZE_MAX` size
returns `EXIT_FAILURE = 1`, a padding failure −1.  `none` models a
non-terminating `expandChallenge`. -/
def deserializeSignature2 (P : Prims) (pp : Params) (fuel : Nat) (sigBytes : Bytes) :
    Option (Except Int Signature2) :=
  if sigBytes.length < pp.digest_size + SALT_SIZE then some (.error 1)
  else
    let challenge := sigBytes.take pp.digest_size
    let salt := (sigBytes.drop pp.digest_size).take SALT_SIZE
    match expandChallenge P pp fuel challenge with
    | none => none
    | some (cC, cP) =>
      match P.revealSeedsSize pp.num_rounds cC pp.num_opened_rounds with
      | none => some (.error 1)
      | some iLen =>
        match P.merkleOpenSize pp.num_rounds (getMissingLeavesList cC pp) with
        | none => some (.error 1)
        | some cvLen =>
          match P.revealSeedsSize pp.num_MPC_parties [0] 1 with
          | none => some (.error 1)
          | some sLen =>
            let bytesRequired := pp.digest_size + SALT_SIZE + iLen + cvLen +
              ((List.range pp.num_rounds).filter (fun t => contains cC t)).foldl
                (fun acc t =>
                  acc + sLen + pp.digest_size + pp.input_output_size + pp.view_size +
                    (if cP.getD (indexOf cC t) 0 ≠ pp.num_MPC_parties - 1 then pp.view_size
                     else 0))
                0
            if sigBytes.length ≠ bytesRequired then some (.error 1)
            else
              let rest0 := sigBytes.drop (pp.digest_size + SALT_SIZE)
              let iSeedInfo := rest0.take iLen
              let rest1 := rest0.drop iLen
              let cvInfo := rest1.take cvLen
              let rest2 := rest1.drop cvLen
              match parseProofs pp cC cP sLen
                  ((List.range pp.num_rounds).filter (fun t => contains cC t)) rest2
                  (List.replicate pp.num_rounds none) with
              | .error e => some (.error e)
              | .ok (proofs, _) =>
                some (.ok { challenge := challenge, salt := salt, iSeedInfo := iSeedInfo,
                            cvInfo := cvInfo, challengeC := cC, challengeP := cP,
                            proofs := proofs })

/-- One iteration of the first verification loop (picnic3_impl.c:415–489):
the per-round tapes and the `N` party commitments `C[t]`.  For `t ∉ challengeC`
the seeds come from the reconstructed initial seed and the aux tape is
recomputed; for `t ∈ challengeC` the seeds come from `proofs[t].seedInfo`
hiding `challengeP[idxOf t]`, every party commits without aux, the last
party's commitment absorbs `proofs[t].aux` when the last party is opened, and
the unopened slot receives `proofs[t].C`.  `none` models a failing
`reconstructSeeds`. -/
def verifyRound (P : Prims) (pp : Params) (sig : Signature2) (iLeaves : List Bytes) (t : Nat) :
    Option (RandomTape × List Bytes) :=
  let last := pp.num_MPC_parties - 1
  if contains sig.challengeC t then
    let u := sig.challengeP.getD (indexOf sig.challengeC t) 0
    let pr := (sig.proofs.getD t none).getD default
    match reconstructLeaves P pp pp.num_MPC_parties [u] pr.seedInfo sig.salt t with
    | none => none
    | some leaves =>
      let tapes := createRandomTapes P pp leaves sig.salt t
      let base := (List.range pp.num_MPC_parties).map (fun j =>
        commit P pp (leaves.getD j []) none sig.salt t j)
      let withLast :=
        if last ≠ u then
          base.set last (commit P pp (leaves.getD last []) (some pr.aux) sig.salt t last)
        else base
      some (tapes, withLast.set u (readBytes pr.C pp.digest_size))
  else
    let leaves := seedLeaves P pp pp.num_MPC_parties (iLeaves.getD t []) sig.salt t
    let tapes := (computeAuxTape P pp (createRandomTapes P pp leaves sig.salt t)).1
    some (tapes,
      (List.range pp.num_MPC_parties).map (fun j =>
        if j = last then commit P pp (leaves.getD j []) (some tapes.aux_bits) sig.salt t j
        else commit P pp (leaves.getD j []) none sig.salt t j))

/-- The second verification loop (picnic3_impl.c:498–522) over the opened
rounds, with the shared `msgs` buffer threaded through: install the aux bits
into the last party's tape, zero the unopened party's tape, install the
transcript of the unopened party, run `simulateOnline`, and commit to the
views.  (The C loop counter is a `uint8_t`; the model is faithful for
`num_opened_rounds ≤ 255`.)  `none` models a failing simulation. -/
def verifyOnlineLoop (P : Prims) (pp : Params) (sig : Signature2) (pubKey plaintext : Bytes)
    (tapesOf : Nat → RandomTape) :
    List Nat → Msgs → List (Option Bytes) → Option (List (Option Bytes))
  | [], _, cv => some cv
  | i :: rest, st, cv =>
    let t := sig.challengeC.getD i 0
    let u := sig.challengeP.getD i 0
    let pr := (sig.proofs.getD t none).getD default
    let last := pp.num_MPC_parties - 1
    let tp := tapesOf t
    let tape1 := tp.tape.set last (setAuxBits pp (tp.tape.getD last []) pr.aux)
    let tape2 := tape1.set u (List.replicate (2 * pp.view_size) 0)
    let st1 : Msgs := { msgs := st.msgs.set u (readBytes pr.msgs pp.view_size)
                        pos := 0
                        unopened := some u }
    match simOnlineB P pp (readBytes pr.input pp.input_output_size) { tp with tape := tape2 }
        st1 plaintext pubKey with
    | none => none
    | some out =>
      verifyOnlineLoop P pp sig pubKey plaintext tapesOf rest out
        (cv.set t (some (commit_v P pp pr.input out)))

/-- `verify_picnic3(sig, pubKey, plaintext, message, messageByteLength,
params)` (picnic3_impl.c:362).  Every failure (seed reconstruction, online
simulation, Merkle mismatch, challenge mismatch) returns −1; acceptance
returns 0.  `allocateMsgsVerify` is modelled as zero-initialized transcript
buffers; `none` models a non-terminating `expandChallenge` inside the final
`HCP`. -/
def verify_picnic3 (P : Prims) (pp : Params) (fuel : Nat) (sig : Signature2)
    (pubKey plaintext message : Bytes) : Option Int :=
  match reconstructLeaves P pp pp.num_rounds sig.challengeC sig.iSeedInfo sig.salt 0 with
  | none => some (-1)
  | some iLeaves =>
    if (List.range pp.num_rounds).all (fun t => (verifyRound P pp sig iLeaves t).isSome) then
      let tapesOf := fun t => ((verifyRound P pp sig iLeaves t).getD default).1
      let Ch := (List.range pp.num_rounds).map (fun t =>
        commit_h P pp ((verifyRound P pp sig iLeaves t).getD default).2)
      match verifyOnlineLoop P pp sig pubKey plaintext tapesOf
          (List.range pp.num_opened_rounds) (msgs0 pp)
          (List.replicate pp.num_rounds none) with
      | none => some (-1)
      | some cv =>
        match P.merkleCheck pp.num_rounds cv sig.salt
            (getMissingLeavesList sig.challengeC pp) sig.cvInfo with
        | none => some (-1)
        | some rootNodes =>
          let challenge := HCP P pp Ch rootNodes sig.salt pubKey plaintext message
          match expandChallenge P pp fuel challenge with
          | none => none
          | some _ =>
            some (if readBytes sig.challenge pp.digest_size = challenge then 0 else -1)
    else some (-1)

/-- `impl_sign_picnic3(instance, plaintext, private_key, public_key, msg,
msglen, signature, signature_len)` (picnic3_impl.c:986): sign, then serialize
into a buffer of `sigBufLen` bytes; on success the written bytes and the
actual length.  Allocation failures are not modelled. -/
def impl_sign_picnic3 (P : Prims) (pp : Params) (fuel : Nat)
    (plaintext privateKey pubKey message : Bytes) (sigBufLen : Nat) :
    Option (Except Int (Bytes × Nat)) :=
  match sign_picnic3 P pp fuel privateKey pubKey plaintext message with
  | none => none
  | some (.error e) => some (.error e)
  | some (.ok sig) =>
    if sigBufLen < required_signature_size pp sig then some (.error (-1))
    else some (.ok (serializeSignature2 pp sig, required_signature_size pp sig))

/-- `impl_verify_picnic3(instance, plaintext, public_key, msg, msglen,
signature, signature_len)` (picnic3_impl.c:1021): deserialize, then verify;
a deserialization failure's return value is passed through unchanged. -/
def impl_verify_picnic3 (P : Prims) (pp : Params) (fuel : Nat)
    (plaintext pubKey message sigBytes : Bytes) : Option Int :=
  match deserializeSignature2 P pp fuel sigBytes with
  | none => none
  | some (.error e) => some e
  | some (.ok sig) => verify_picnic3 P pp fuel sig pubKey plaintext message

/-! ### A concrete instantiation of the primitives

Small executable stand-ins for the delegated primitives, used to evaluate the
theorems' hypotheses at concrete inputs.  They satisfy the §6 contracts on the
inputs at which the witnesses apply them. -/

/-- Byte sum, the mixing function of the toy primitives. -/
def toySum (xs : Bytes) : Nat := xs.foldl (· + ·) 0

/-- A miniature parameter set in the shape of §3: `D = S = IO = V = 1`,
`N = 4`, `T = 4`, `τ = 2`, LowMC shape `(n, m, r) = (1, 1, 1)`. -/
def toyParams : Params :=
  { digest_size := 1, seed_size := 1, num_MPC_parties := 4, num_rounds := 4
    num_opened_rounds := 2, input_output_size := 1, view_size := 1
    lowmc := ⟨1, 1, 1⟩ }

/-- Executable toy primitives. -/
def toyPrims : Prims where
  hash := fun ds data outLen => (List.range outLen).map (fun i => (toySum data + ds + i) % 256)
  hashPfx := fun pfx ds data outLen =>
    (List.range outLen).map (fun i => (pfx + toySum data + ds + i) % 256)
  genLeaves := fun nL root salt t =>
    (List.range nL).map (fun i => [(toySum root + toySum salt + t + i) % 256])
  revealSeeds := fun nL root salt t hide =>
    ((List.range nL).filter (fun i => !hide.contains i)).flatMap
      (fun i => [(toySum root + toySum salt + t + i) % 256])
  revealSeedsSize := fun nL _hide hideLen => some (nL - hideLen)
  reconstructSeeds := fun nL hide data _salt _t =>
    some ((List.range nL).map (fun i =>
      if hide.contains i then [0]
      else [data.getD ((List.range i).filter (fun k => !hide.contains k)).length 0]))
  merkleRoot := fun leaves salt => [(toySum leaves.flatten + toySum salt + 7) % 256]
  merkleOpen := fun leaves _salt missing => missing.flatMap (fun i => readBytes (leaves.getD i []) 1)
  merkleOpenSize := fun _nL missing => some missing.length
  merkleCheck := fun nL part salt missing info =>
    some ((fun leaves => [(toySum leaves.flatten + toySum salt + 7) % 256])
      ((List.range nL).map (fun i =>
        match part.getD i none with
        | some b => b
        | none => [info.getD (indexOf missing i) 0])))
  lowmcAux := fun key _tapes => ([toySum key % 8], key)
  simOnline := fun maskedKey _tapes m pt pk =>
    some { msgs := (List.range 4).map (fun j =>
             if m.unopened = some j then m.msgs.getD j []
             else [(toySum maskedKey + toySum pt + toySum pk + 3 * j) % 8])
           pos := 3
           unopened := m.unopened }

/-- The value of a byte string read as a little-endian natural number (bytes
taken mod 256), used to state what a "little-endian LSB-first chunk" is. -/
def leBytesVal (xs : Bytes) : Nat := xs.foldr (fun b acc => b % 256 + 256 * acc) 0

/-- A 51-byte all-zero string, which the toy instantiation accepts as a
signature encoding (challenge `[0]` expands to `challengeC = [0, 2]`,
`challengeP = [0, 1]`). -/
def toyAcceptedBytes : Bytes := List.replicate 51 0

/-- The signature structure the toy instantiation parses out of
`toyAcceptedBytes`. -/
def toyAcceptedSig : Signature2 :=
  { challenge := [0]
    salt := List.replicate 32 0
    iSeedInfo := [0, 0]
    cvInfo := [0, 0]
    challengeC := [0, 2]
    challengeP := [0, 1]
    proofs := [some ⟨[0, 0, 0], [0], [0], [0], [0], 0⟩, none,
               some ⟨[0, 0, 0], [0], [0], [0], [0], 0⟩, none] }

/-- The fields of a proof entry that survive a serialization round trip:
`unOpenedIndex` is not written to the wire, and `deserializeSignature2` leaves
it at the `allocateProof2` default 0. -/
def scrubProof (pr : Proof2) : Proof2 :=
  { pr with unOpenedIndex := 0 }

/-- A signature with every proof's `unOpenedIndex` reset to the
deserializer's default. -/
def scrubSig (sig : Signature2) : Signature2 :=
  { sig with proofs := sig.proofs.map (Option.map scrubProof) }

/-- Well-formedness of a signature structure with respect to the primitives,
parameters and fuel: the challenge lists are the expansion of the challenge,
the opening buffers have the lengths the size functions report (the per-proof
length being the `hideList = [0]` one for every opened round), the proof
entries sit exactly at the opened rounds, carry buffers of the nominal sizes
with zero padding, and the aux buffer is the allocation default when the last
party is the unopened one.  `sign_picnic3` produces exactly such structures. -/
def WellFormedSig (P : Prims) (pp : Params) (fuel : Nat) (sig : Signature2) : Prop :=
  sig.challenge.length = pp.digest_size ∧
  sig.salt.length = SALT_SIZE ∧
  expandChallenge P pp fuel sig.challenge = some (sig.challengeC, sig.challengeP) ∧
  P.revealSeedsSize pp.num_rounds sig.challengeC pp.num_opened_rounds =
    some sig.iSeedInfo.length ∧
  P.merkleOpenSize pp.num_rounds (getMissingLeavesList sig.challengeC pp) =
    some sig.cvInfo.length ∧
  (P.revealSeedsSize pp.num_MPC_parties [0] 1).isSome = true ∧
  sig.proofs.length = pp.num_rounds ∧
  (∀ t, t < pp.num_rounds →
    (contains sig.challengeC t = true ↔ (sig.proofs.getD t none).isSome = true)) ∧
  (∀ t, t < pp.num_rounds → contains sig.challengeC t = true →
    P.revealSeedsSize pp.num_MPC_parties [0] 1 =
      some ((sig.proofs.getD t none).getD default).seedInfo.length ∧
    ((sig.proofs.getD t none).getD default).input.length = pp.input_output_size ∧
    ((sig.proofs.getD t none).getD default).msgs.length = pp.view_size ∧
    ((sig.proofs.getD t none).getD default).C.length = pp.digest_size ∧
    arePaddingBitsZero ((sig.proofs.getD t none).getD default).input pp.input_output_size
      pp.lowmc.n = true ∧
    arePaddingBitsZero ((sig.proofs.getD t none).getD default).msgs pp.view_size
      (3 * pp.lowmc.r * pp.lowmc.m) = true ∧
    (if sig.challengeP.getD (indexOf sig.challengeC t) 0 ≠ pp.num_MPC_parties - 1 then
      ((sig.proofs.getD t none).getD default).aux.length = pp.view_size ∧
      arePaddingBitsZero ((sig.proofs.getD t none).getD default).aux pp.view_size
        (3 * pp.lowmc.r * pp.lowmc.m) = true
     else ((sig.proofs.getD t none).getD default).aux = List.replicate pp.view_size 0))

instance (P : Prims) (pp : Params) (fuel : Nat) (sig : Signature2) :
    Decidable (WellFormedSig P pp fuel sig) := by
  unfold WellFormedSig
  infer_instance

/-- `toyAcceptedSig` with a nonzero `unOpenedIndex` recorded in round 0's
proof; it serializes to `toyAcceptedBytes` as well, since `unOpenedIndex` is
not on the wire. -/
def toyCexSig : Signature2 :=
  { toyAcceptedSig with
    proofs := [some ⟨[0, 0, 0], [0], [0], [0], [0], 5⟩, none,
               some ⟨[0, 0, 0], [0], [0], [0], [0], 0⟩, none] }

/-- Per-round well-formedness of a proof entry as the wire lemmas consume it:
the uniform seed-opening length, nominal buffer sizes, zero padding, and the
aux buffer present exactly when the unopened party is not the last. -/
def ProofWire (pp : Params) (cC cP : List Nat) (sLen : Nat) (t : Nat) (pr : Proof2) : Prop :=
  pr.seedInfo.length = sLen ∧
  ((cP.getD (indexOf cC t) 0 != pp.num_MPC_parties - 1) = true →
    pr.aux.length = pp.view_size ∧
    arePaddingBitsZero pr.aux pp.view_size (3 * pp.lowmc.r * pp.lowmc.m) = true) ∧
  ((cP.getD (indexOf cC t) 0 != pp.num_MPC_parties - 1) = false →
    pr.aux = List.replicate pp.view_size 0) ∧
  pr.input.length = pp.input_output_size ∧
  arePaddingBitsZero pr.input pp.input_output_size pp.lowmc.n = true ∧
  pr.msgs.length = pp.view_size ∧
  arePaddingBitsZero pr.msgs pp.view_size (3 * pp.lowmc.r * pp.lowmc.m) = true ∧
  pr.C.length = pp.digest_size

/-- The wire bytes of one proof entry, right-nested. -/
def wireBlock (pp : Params) (cC cP : List Nat) (t : Nat) (pr : Proof2) : Bytes :=
  pr.seedInfo ++
    ((if (cP.getD (indexOf cC t) 0 != pp.num_MPC_parties - 1) = true then pr.aux else []) ++
      (pr.input ++ (pr.msgs ++ pr.C)))

/-- The wire length of one proof entry. -/
def proofBlockLen (pp : Params) (hasAux : Bool) (sLen : Nat) : Nat :=
  sLen + (if hasAux then pp.view_size else 0) + pp.input_output_size + pp.view_size +
    pp.digest_size

/-! ### Challenge expansion lemmas -/

theorem clog2Fuel_eq_clog (fuel : Nat) : ∀ n, n ≤ fuel → clog2Fuel fuel n = Nat.clog 2 n := by
  induction fuel with
  | zero =>
    intro n hn
    interval_cases n
    simp [clog2Fuel]
  | succ f ih =>
    intro n hn
    unfold clog2Fuel
    split
    · next h1 => rw [Nat.clog_of_right_le_one h1]
    · next h1 =>
      have h2 : 2 ≤ n := by omega
      rw [ih ((n + 1) / 2) (by omega), Nat.clog_of_two_le (by norm_num) h2]
      congr 2

/-- The kernel-reducible `ceil_log2` agrees with Mathlib's ceiling logarithm. -/
theorem ceil_log2_eq_clog (n : Nat) : ceil_log2 n = Nat.clog 2 n :=
  clog2Fuel_eq_clog n n le_rfl

theorem appendUnique_nodup {l : List Nat} {v : Nat} (h : l.Nodup) : (appendUnique l v).Nodup := by
  unfold appendUnique
  split
  · exact h
  · next hc =>
    have hc' : v ∉ l := by simpa using hc
    simpa [List.nodup_append] using ⟨h, hc'⟩

theorem appendUnique_length {l : List Nat} {v : Nat} :
    (appendUnique l v).length = l.length ∨ (appendUnique l v).length = l.length + 1 := by
  unfold appendUnique
  split
  · exact Or.inl rfl
  · simp

theorem appendUnique_mem {l : List Nat} {v x : Nat} (h : x ∈ appendUnique l v) :
    x ∈ l ∨ x = v := by
  unfold appendUnique at h
  split at h
  · exact Or.inl h
  · rcases List.mem_append.mp h with h | h
    · exact Or.inl h
    · simp at h; exact Or.inr h

theorem chunkPass_out (bound target : Nat) (dedup : Bool) (cs : List Nat) :
    ∀ acc : List Nat, (dedup = true → acc.Nodup) → (∀ x ∈ acc, x < bound) →
      acc.length < target →
      ((dedup = true → (chunkPass bound target dedup cs acc).Nodup) ∧
        (∀ x ∈ chunkPass bound target dedup cs acc, x < bound) ∧
        (chunkPass bound target dedup cs acc).length ≤ target) := by
  induction cs with
  | nil =>
    intro acc hnd hlt hlen
    exact ⟨hnd, hlt, Nat.le_of_lt hlen⟩
  | cons c rest ih =>
    intro acc hnd hlt hlen
    simp only [chunkPass]
    set acc' := if c < bound then (if dedup then appendUnique acc c else acc ++ [c]) else acc
      with hacc'
    have hnd' : dedup = true → acc'.Nodup := by
      intro hd
      subst hd
      simp only [hacc', if_true]
      split
      · exact appendUnique_nodup (hnd rfl)
      · exact hnd rfl
    have hlt' : ∀ x ∈ acc', x < bound := by
      intro x hx
      simp only [hacc'] at hx
      split at hx
      · next hc =>
        split at hx
        · rcases appendUnique_mem hx with h | h
          · exact hlt x h
          · exact h ▸ hc
        · rcases List.mem_append.mp hx with h | h
          · exact hlt x h
          · simp at h; exact h ▸ hc
      · exact hlt x hx
    have hlen' : acc'.length ≤ acc.length + 1 := by
      simp only [hacc']
      split
      · split
        · rcases @appendUnique_length acc c with h | h <;> omega
        · simp
      · omega
    split
    · next he => exact ⟨hnd', hlt', Nat.le_of_eq he⟩
    · next he =>
      exact ih acc' hnd' hlt' (by omega)

theorem challengePhase_out (P : Prims) (pp : Params) (bits bound target : Nat) (dedup : Bool) :
    ∀ (fuel : Nat) (h : Bytes) (acc res : List Nat) (hout : Bytes),
      (dedup = true → acc.Nodup) → (∀ x ∈ acc, x < bound) → acc.length ≤ target →
      challengePhase P pp bits bound target dedup fuel h acc = some (res, hout) →
      res.length = target ∧ (dedup = true → res.Nodup) ∧ ∀ x ∈ res, x < bound := by
  intro fuel
  induction fuel with
  | zero =>
    intro h acc res hout hnd hlt hle hres
    simp only [challengePhase] at hres
    split at hres
    · next he =>
      obtain ⟨rfl, rfl⟩ : acc = res ∧ h = hout := by
        constructor <;> cases hres <;> rfl
      exact ⟨he, hnd, hlt⟩
    · cases hres
  | succ f ihf =>
    intro h acc res hout hnd hlt hle hres
    simp only [challengePhase] at hres
    split at hres
    · next he =>
      obtain ⟨rfl, rfl⟩ : acc = res ∧ h = hout := by
        constructor <;> cases hres <;> rfl
      exact ⟨he, hnd, hlt⟩
    · next he =>
      have hlen : acc.length < target := Nat.lt_of_le_of_ne hle he
      obtain ⟨h1, h2, h3⟩ :=
        chunkPass_out bound target dedup (bitsToChunks bits h pp.digest_size) acc hnd hlt hlen
      exact ihf _ _ res hout h1 h2 h3 hres

theorem challengePhase_agree (P : Prims) (pp : Params) (bits bound target : Nat) (dedup : Bool) :
    ∀ (fuel₁ fuel₂ : Nat) (h : Bytes) (acc : List Nat) (r₁ r₂ : List Nat × Bytes),
      challengePhase P pp bits bound target dedup fuel₁ h acc = some r₁ →
      challengePhase P pp bits bound target dedup fuel₂ h acc = some r₂ → r₁ = r₂ := by
  intro fuel₁
  induction fuel₁ with
  | zero =>
    intro fuel₂ h acc r₁ r₂ h₁ h₂
    simp only [challengePhase] at h₁
    split at h₁
    · next he =>
      cases h₁
      cases fuel₂ <;> simp only [challengePhase, he, if_true] at h₂ <;> cases h₂ <;> rfl
    · cases h₁
  | succ f ihf =>
    intro fuel₂ h acc r₁ r₂ h₁ h₂
    simp only [challengePhase] at h₁
    split at h₁
    · next he =>
      cases h₁
      cases fuel₂ <;> simp only [challengePhase, he, if_true] at h₂ <;> cases h₂ <;> rfl
    · next he =>
      cases fuel₂ with
      | zero =>
        simp only [challengePhase, he, if_false] at h₂
        cases h₂
      | succ f₂ =>
        simp only [challengePhase, he, if_false] at h₂
        exact ihf f₂ _ _ r₁ r₂ h₁ h₂

theorem challengePhase_iterate (P : Prims) (pp : Params) (bits bound target : Nat)
    (dedup : Bool) :
    ∀ (fuel : Nat) (h : Bytes) (acc res : List Nat) (hout : Bytes),
      challengePhase P pp bits bound target dedup fuel h acc = some (res, hout) →
      ∃ k, hout = (rehash P pp)^[k] h ∧ (acc.length ≠ target → 1 ≤ k) := by
  intro fuel
  induction fuel with
  | zero =>
    intro h acc res hout hres
    simp only [challengePhase] at hres
    split at hres
    · next he =>
      refine ⟨0, ?_, fun hne => absurd he hne⟩
      cases hres; rfl
    · cases hres
  | succ f ihf =>
    intro h acc res hout hres
    simp only [challengePhase] at hres
    split at hres
    · next he =>
      refine ⟨0, ?_, fun hne => absurd he hne⟩
      cases hres; rfl
    · next he =>
      obtain ⟨k, hk, -⟩ := ihf _ _ res hout hres
      refine ⟨k + 1, ?_, fun _ => by omega⟩
      rw [hk, Function.iterate_succ_apply]

theorem byte_bit_mod256 (b j : Nat) (hj : j < 8) : b / 2 ^ j % 2 = b % 256 / 2 ^ j % 2 := by
  obtain ⟨m, hm⟩ : ∃ m, (2 : Nat) ^ (8 - j) = 2 * m :=
    ⟨2 ^ (7 - j), by rw [← pow_succ']; congr 1; omega⟩
  have hb : b % 256 + 2 ^ j * (2 ^ (8 - j) * (b / 256)) = b := by
    rw [← mul_assoc, ← pow_add, show j + (8 - j) = 8 from by omega]
    have h := Nat.mod_add_div b 256
    norm_num
    omega
  conv_lhs => rw [← hb]
  rw [Nat.add_mul_div_left _ _ (Nat.two_pow_pos j), hm, mul_assoc]
  omega

theorem leBytesVal_bit (xs : Bytes) :
    ∀ k, leBytesVal xs / 2 ^ k % 2 = xs.getD (k / 8) 0 % 256 / 2 ^ (k % 8) % 2 := by
  induction xs with
  | nil => intro k; simp [leBytesVal]
  | cons b rest ih =>
    intro k
    have hcons : leBytesVal (b :: rest) = b % 256 + 256 * leBytesVal rest := rfl
    by_cases hk : k < 8
    · have hdiv : k / 8 = 0 := Nat.div_eq_of_lt hk
      have hmod : k % 8 = k := Nat.mod_eq_of_lt hk
      obtain ⟨m, hm⟩ : ∃ m, (2 : Nat) ^ (8 - k) = 2 * m :=
        ⟨2 ^ (7 - k), by rw [← pow_succ']; congr 1; omega⟩
      have h256 : (256 : Nat) = 2 ^ k * 2 ^ (8 - k) := by
        rw [← pow_add, show k + (8 - k) = 8 from by omega]; norm_num
      have h256' : 256 * leBytesVal rest = 2 ^ k * (2 ^ (8 - k) * leBytesVal rest) := by
        rw [← mul_assoc, ← h256]
      rw [hcons, hdiv, hmod]
      simp only [List.getD_cons_zero]
      rw [h256', Nat.add_mul_div_left _ _ (Nat.two_pow_pos k), hm, mul_assoc]
      omega
    · have hk8 : 8 ≤ k := by omega
      have h2k : (2 : Nat) ^ k = 256 * 2 ^ (k - 8) := by
        rw [show (256 : Nat) = 2 ^ 8 from by norm_num, ← pow_add]
        congr 1
        omega
      have hstep : leBytesVal (b :: rest) / 2 ^ k = leBytesVal rest / 2 ^ (k - 8) := by
        rw [hcons, h2k, ← Nat.div_div_eq_div_mul,
          Nat.add_mul_div_left _ _ (by norm_num : (0 : Nat) < 256),
          Nat.div_eq_of_lt (Nat.mod_lt b (by norm_num)), Nat.zero_add]
      rw [hstep, ih (k - 8)]
      have hd : (b :: rest).getD (k / 8) 0 = rest.getD ((k - 8) / 8) 0 := by
        have : k / 8 = (k - 8) / 8 + 1 := by omega
        rw [this]
        simp
      rw [hd, show (k - 8) % 8 = k % 8 from by omega]

theorem getBit_leBytesVal (input : Bytes) (len k : Nat) (hk : k < len * 8) :
    getBit input k = leBytesVal (readBytes input len) / 2 ^ k % 2 := by
  rw [leBytesVal_bit]
  have hidx : k / 8 < len := by omega
  have hget : (readBytes input len).getD (k / 8) 0 = input.getD (k / 8) 0 := by
    unfold readBytes
    rw [List.getD_eq_getElem _ _ (by simpa using hidx), List.getElem_map, List.getElem_range]
  rw [hget, ← byte_bit_mod256 _ _ (Nat.mod_lt k (by norm_num))]
  rfl

theorem chunkFold_eq (v off cl : Nat) (g : Nat → Nat)
    (hg : ∀ j < cl, g (off + j) = v / 2 ^ (off + j) % 2) :
    (List.range cl).foldl (fun acc j => acc + g (off + j) * 2 ^ j) 0 = v / 2 ^ off % 2 ^ cl := by
  induction cl with
  | zero => simp [Nat.mod_one]
  | succ n ih =>
    rw [List.range_succ, List.foldl_append]
    rw [ih (fun j hj => hg j (by omega))]
    simp only [List.foldl_cons, List.foldl_nil]
    rw [Nat.mod_pow_succ, hg n (by omega), pow_add, ← Nat.div_div_eq_div_mul]
    ring

theorem bitsToChunks_spec (cl : Nat) (input : Bytes) (len : Nat) (h0 : cl ≠ 0)
    (hle : cl ≤ len * 8) :
    (bitsToChunks cl input len).length = len * 8 / cl ∧
      ∀ i < len * 8 / cl,
        (bitsToChunks cl input len).getD i 0 =
          leBytesVal (readBytes input len) / 2 ^ (i * cl) % 2 ^ cl := by
  have hguard : ¬(cl = 0 ∨ len * 8 < cl) := by omega
  constructor
  · simp [bitsToChunks, hguard]
  · intro i hi
    unfold bitsToChunks
    rw [if_neg hguard]
    rw [List.getD_eq_getElem _ _ (by simpa using hi), List.getElem_map, List.getElem_range]
    apply chunkFold_eq
    intro j hj
    have h1 : (i + 1) * cl ≤ len * 8 / cl * cl :=
      Nat.mul_le_mul_right _ (Nat.succ_le_of_lt hi)
    have h2 := Nat.div_mul_le_self (len * 8) cl
    have h3 : (i + 1) * cl = i * cl + cl := Nat.succ_mul i cl
    exact getBit_leBytesVal input len _ (by omega)

theorem expandChallenge_out (P : Prims) (pp : Params) (fuel : Nat) (sigH : Bytes)
    (cC cP : List Nat) (h : expandChallenge P pp fuel sigH = some (cC, cP)) :
    cC.length = pp.num_opened_rounds ∧ cC.Nodup ∧ (∀ x ∈ cC, x < pp.num_rounds) ∧
      cP.length = pp.num_opened_rounds ∧ (∀ x ∈ cP, x < pp.num_MPC_parties) := by
  simp only [expandChallenge, bind, Option.bind_eq_some, pure, Option.some.injEq] at h
  obtain ⟨⟨cC₁, hb₁⟩, hC₁, ⟨cP₁, hend₁⟩, hP₁, hr⟩ := h
  obtain ⟨rfl, rfl⟩ : cC₁ = cC ∧ cP₁ = cP := by
    constructor <;> cases hr <;> rfl
  obtain ⟨hClen, hCnd, hClt⟩ := challengePhase_out P pp (ceil_log2 pp.num_rounds)
    pp.num_rounds pp.num_opened_rounds true fuel _ [] _ _ (fun _ => List.nodup_nil)
    (by simp) (by simp) hC₁
  obtain ⟨hPlen, -, hPlt⟩ := challengePhase_out P pp (ceil_log2 pp.num_MPC_parties)
    pp.num_MPC_parties pp.num_opened_rounds false fuel _ [] _ _ (by simp)
    (by simp) (by simp) hP₁
  exact ⟨hClen, hCnd rfl, hClt, hPlen, hPlt⟩

/-- **C5.** For a fixed digest `sigH` and parameter set, `expandChallenge` is a
deterministic function of `(sigH, params)` (its result does not depend on the
termination fuel), and on termination `challengeC` holds exactly
`num_opened_rounds` pairwise-distinct values below `num_rounds` while
`challengeP` holds exactly `num_opened_rounds` values below `num_MPC_parties`,
appended without deduplication. -/
theorem C5_expandChallenge_postconditions (P : Prims) (pp : Params)
    (fuel₁ fuel₂ : Nat) (sigH : Bytes) (r₁ r₂ : List Nat × List Nat)
    (h₁ : expandChallenge P pp fuel₁ sigH = some r₁)
    (h₂ : expandChallenge P pp fuel₂ sigH = some r₂) :
    r₁ = r₂ ∧ r₁.1.length = pp.num_opened_rounds ∧ r₁.1.Nodup ∧
      (∀ x ∈ r₁.1, x < pp.num_rounds) ∧ r₁.2.length = pp.num_opened_rounds ∧
      (∀ x ∈ r₁.2, x < pp.num_MPC_parties) := by
  simp only [expandChallenge, bind, Option.bind_eq_some, pure, Option.some.injEq] at h₁ h₂
  obtain ⟨⟨cC₁, hb₁⟩, hC₁, ⟨cP₁, hend₁⟩, hP₁, hr₁⟩ := h₁
  obtain ⟨⟨cC₂, hb₂⟩, hC₂, ⟨cP₂, hend₂⟩, hP₂, hr₂⟩ := h₂
  have hCeq := challengePhase_agree P pp (ceil_log2 pp.num_rounds) pp.num_rounds
    pp.num_opened_rounds true fuel₁ fuel₂ _ _ _ _ hC₁ hC₂
  obtain ⟨rfl, rfl⟩ : cC₁ = cC₂ ∧ hb₁ = hb₂ := by
    constructor <;> cases hCeq <;> rfl
  have hPeq := challengePhase_agree P pp (ceil_log2 pp.num_MPC_parties) pp.num_MPC_parties
    pp.num_opened_rounds false fuel₁ fuel₂ _ _ _ _ hP₁ hP₂
  obtain ⟨rfl, rfl⟩ : cP₁ = cP₂ ∧ hend₁ = hend₂ := by
    constructor <;> cases hPeq <;> rfl
  obtain ⟨hClen, hCnd, hClt⟩ := challengePhase_out P pp (ceil_log2 pp.num_rounds)
    pp.num_rounds pp.num_opened_rounds true fuel₁ _ [] _ _ (fun _ => List.nodup_nil)
    (by simp) (by simp) hC₁
  obtain ⟨hPlen, -, hPlt⟩ := challengePhase_out P pp (ceil_log2 pp.num_MPC_parties)
    pp.num_MPC_parties pp.num_opened_rounds false fuel₁ _ [] _ _ (by simp)
    (by simp) (by simp) hP₁
  subst hr₁ hr₂
  exact ⟨rfl, hClen, hCnd rfl, hClt, hPlen, hPlt⟩

/-- Witness for C5 at the toy instantiation. -/
theorem C5_expandChallenge_postconditions_witness :
    (([0, 2], [0, 1]) : List Nat × List Nat) = ([0, 2], [0, 1]) ∧
      (([0, 2], [0, 1]) : List Nat × List Nat).1.length = toyParams.num_opened_rounds ∧
      (([0, 2], [0, 1]) : List Nat × List Nat).1.Nodup ∧
      (∀ x ∈ (([0, 2], [0, 1]) : List Nat × List Nat).1, x < toyParams.num_rounds) ∧
      (([0, 2], [0, 1]) : List Nat × List Nat).2.length = toyParams.num_opened_rounds ∧
      (∀ x ∈ (([0, 2], [0, 1]) : List Nat × List Nat).2, x < toyParams.num_MPC_parties) :=
  C5_expandChallenge_postconditions toyPrims toyParams 20 21 [0] ([0, 2], [0, 1])
    ([0, 2], [0, 1]) (by decide) (by decide)

/-- **C6.** Every outer iteration of Phase C of `expandChallenge` ends with the
`HASH_PREFIX_1` rehash of `h`, also the iteration that filled `challengeC`
exactly, so Phase P starts from an `h` that is a `k`-fold rehash of the
initial buffer with `k ≥ 1` — never from the raw buffer whose chunks filled
`challengeC`.  Moreover the chunks of a buffer are its
`⌊len·8 / chunkLenBits⌋` little-endian `chunkLenBits`-bit chunks, chunk `i`
reading bits `[i·cl, (i+1)·cl)` LSB-first. -/
theorem C6_interphase_rehash (P : Prims) (pp : Params) (fuel : Nat) (sigH : Bytes)
    (cC cP : List Nat) (hτ : 0 < pp.num_opened_rounds)
    (hexp : expandChallenge P pp fuel sigH = some (cC, cP)) :
    (∃ k h1 h2, 1 ≤ k ∧ h1 = (rehash P pp)^[k] (readBytes sigH pp.digest_size) ∧
      challengePhase P pp (ceil_log2 pp.num_rounds) pp.num_rounds pp.num_opened_rounds true
        fuel (readBytes sigH pp.digest_size) [] = some (cC, h1) ∧
      challengePhase P pp (ceil_log2 pp.num_MPC_parties) pp.num_MPC_parties
        pp.num_opened_rounds false fuel h1 [] = some (cP, h2)) ∧
    (∀ (cl : Nat) (input : Bytes) (len : Nat), cl ≠ 0 → cl ≤ len * 8 →
      (bitsToChunks cl input len).length = len * 8 / cl ∧
      ∀ i < len * 8 / cl,
        (bitsToChunks cl input len).getD i 0 =
          leBytesVal (readBytes input len) / 2 ^ (i * cl) % 2 ^ cl) := by
  refine ⟨?_, fun cl input len h0 hle => bitsToChunks_spec cl input len h0 hle⟩
  simp only [expandChallenge, bind, Option.bind_eq_some, pure, Option.some.injEq] at hexp
  obtain ⟨⟨cC₁, hb₁⟩, hC₁, ⟨cP₁, hend₁⟩, hP₁, hr⟩ := hexp
  obtain ⟨rfl, rfl⟩ : cC₁ = cC ∧ cP₁ = cP := by
    constructor <;> cases hr <;> rfl
  obtain ⟨k, hk, hk1⟩ := challengePhase_iterate P pp (ceil_log2 pp.num_rounds) pp.num_rounds
    pp.num_opened_rounds true fuel _ [] _ _ hC₁
  exact ⟨k, hb₁, hend₁, hk1 (by simpa using Nat.ne_of_lt hτ), hk, hC₁, hP₁⟩

/-- Witness for C6 at the toy instantiation. -/
theorem C6_interphase_rehash_witness :
    (∃ k h1 h2, 1 ≤ k ∧ h1 = (rehash toyPrims toyParams)^[k] (readBytes [0] toyParams.digest_size) ∧
      challengePhase toyPrims toyParams (ceil_log2 toyParams.num_rounds) toyParams.num_rounds
        toyParams.num_opened_rounds true 20 (readBytes [0] toyParams.digest_size) [] =
        some ([0, 2], h1) ∧
      challengePhase toyPrims toyParams (ceil_log2 toyParams.num_MPC_parties)
        toyParams.num_MPC_parties toyParams.num_opened_rounds false 20 h1 [] =
        some ([0, 1], h2)) ∧
    (∀ (cl : Nat) (input : Bytes) (len : Nat), cl ≠ 0 → cl ≤ len * 8 →
      (bitsToChunks cl input len).length = len * 8 / cl ∧
      ∀ i < len * 8 / cl,
        (bitsToChunks cl input len).getD i 0 =
          leBytesVal (readBytes input len) / 2 ^ (i * cl) % 2 ^ cl) :=
  C6_interphase_rehash toyPrims toyParams 20 [0] [0, 2] [0, 1] (by decide) (by decide)

/-! ### Deserialization lemmas -/

theorem getD_set_self {α : Type} (l : List α) (i : Nat) (v d : α) (h : i < l.length) :
    (l.set i v).getD i d = v := by
  rw [List.getD_eq_getElem _ _ (by simpa using h)]
  exact List.getElem_set_self _

theorem getD_set_ne {α : Type} (l : List α) (i j : Nat) (v d : α) (h : i ≠ j) :
    (l.set i v).getD j d = l.getD j d := by
  by_cases hj : j < l.length
  · rw [List.getD_eq_getElem _ _ (by simpa using hj), List.getD_eq_getElem _ _ hj]
    exact List.getElem_set_ne h _
  · rw [List.getD_eq_default _ _ (by simpa using Nat.le_of_not_lt hj),
      List.getD_eq_default _ _ (Nat.le_of_not_lt hj)]

/-- Inversion of an accepting run of `deserializeSignature2`: the recomputed
challenge lists, the three size-function results, the exact-length equation,
and the parsed fields as slices of the wire. -/
theorem deserialize_ok_inv (P : Prims) (pp : Params) (fuel : Nat) (sigBytes : Bytes)
    (sig : Signature2) (h : deserializeSignature2 P pp fuel sigBytes = some (.ok sig)) :
    ∃ iLen cvLen sLen rest,
      pp.digest_size + SALT_SIZE ≤ sigBytes.length ∧
      expandChallenge P pp fuel (sigBytes.take pp.digest_size) =
        some (sig.challengeC, sig.challengeP) ∧
      P.revealSeedsSize pp.num_rounds sig.challengeC pp.num_opened_rounds = some iLen ∧
      P.merkleOpenSize pp.num_rounds (getMissingLeavesList sig.challengeC pp) = some cvLen ∧
      P.revealSeedsSize pp.num_MPC_parties [0] 1 = some sLen ∧
      sigBytes.length = pp.digest_size + SALT_SIZE + iLen + cvLen +
        ((List.range pp.num_rounds).filter (fun t => contains sig.challengeC t)).foldl
          (fun acc t =>
            acc + sLen + pp.digest_size + pp.input_output_size + pp.view_size +
              (if sig.challengeP.getD (indexOf sig.challengeC t) 0 ≠ pp.num_MPC_parties - 1 then
                pp.view_size
               else 0))
          0 ∧
      sig.challenge = sigBytes.take pp.digest_size ∧
      sig.salt = (sigBytes.drop pp.digest_size).take SALT_SIZE ∧
      sig.iSeedInfo = (sigBytes.drop (pp.digest_size + SALT_SIZE)).take iLen ∧
      sig.cvInfo = ((sigBytes.drop (pp.digest_size + SALT_SIZE)).drop iLen).take cvLen ∧
      parseProofs pp sig.challengeC sig.challengeP sLen
        ((List.range pp.num_rounds).filter (fun t => contains sig.challengeC t))
        (((sigBytes.drop (pp.digest_size + SALT_SIZE)).drop iLen).drop cvLen)
        (List.replicate pp.num_rounds none) = .ok (sig.proofs, rest) := by
  simp only [deserializeSignature2] at h
  split at h
  · simp at h
  · next hshort =>
    split at h
    · cases h
    · next cC cP hexp =>
      split at h
      · cases h
      · next iLen hiLen =>
        split at h
        · cases h
        · next cvLen hcvLen =>
          split at h
          · cases h
          · next sLen hsLen =>
            split at h
            · simp at h
            · next hlen =>
              split at h
              · cases h
              · next proofs rest hparse =>
                obtain rfl : _ = sig := by cases h; rfl
                exact ⟨iLen, cvLen, sLen, rest, Nat.le_of_not_lt hshort, hexp, hiLen,
                  hcvLen, hsLen, not_ne_iff.mp hlen, rfl, rfl, rfl, rfl, hparse⟩

/-- **C3.** `deserializeSignature2` derives the expected total length solely
from the first `digest_size` bytes (through `expandChallenge`) together with
the size functions of the parameters; it accepts only byte strings of exactly
that length, rejects (with `EXIT_FAILURE = 1`) any other length, and rejects
whenever a size function reports `SIZE_MAX`.  `challengeC`, `challengeP` and
the lengths are recomputed, never read from the wire. -/
theorem C3_length_exactness (P : Prims) (pp : Params) (fuel : Nat) (sigBytes : Bytes) :
    (∀ sig, deserializeSignature2 P pp fuel sigBytes = some (.ok sig) →
      expandChallenge P pp fuel (sigBytes.take pp.digest_size) =
        some (sig.challengeC, sig.challengeP) ∧
      expectedSigLength P pp sig.challengeC sig.challengeP = some sigBytes.length) ∧
    (∀ cC cP, expandChallenge P pp fuel (sigBytes.take pp.digest_size) = some (cC, cP) →
      (expectedSigLength P pp cC cP = none →
        deserializeSignature2 P pp fuel sigBytes = some (.error 1)) ∧
      (∀ L, expectedSigLength P pp cC cP = some L → sigBytes.length ≠ L →
        deserializeSignature2 P pp fuel sigBytes = some (.error 1))) := by
  constructor
  · intro sig h
    obtain ⟨iLen, cvLen, sLen, rest, hle, hexp, hiLen, hcvLen, hsLen, hlen, -⟩ :=
      deserialize_ok_inv P pp fuel sigBytes sig h
    refine ⟨hexp, ?_⟩
    simp only [expectedSigLength, hiLen, hcvLen, hsLen, Option.bind_eq_bind, Option.some_bind,
      Option.pure_def, Option.some.injEq]
    omega
  · intro cC cP hexp
    by_cases hshort : sigBytes.length < pp.digest_size + SALT_SIZE
    · exact ⟨fun _ => by simp [deserializeSignature2, hshort],
        fun L _ _ => by simp [deserializeSignature2, hshort]⟩
    · constructor
      · intro hE
        simp only [deserializeSignature2, if_neg hshort, hexp]
        cases h1 : P.revealSeedsSize pp.num_rounds cC pp.num_opened_rounds with
        | none => rfl
        | some iLen =>
          cases h2 : P.merkleOpenSize pp.num_rounds (getMissingLeavesList cC pp) with
          | none => rfl
          | some cvLen =>
            cases h3 : P.revealSeedsSize pp.num_MPC_parties [0] 1 with
            | none => rfl
            | some sLen =>
              simp only [expectedSigLength, h1, h2, h3, Option.bind_eq_bind, Option.some_bind,
                Option.pure_def] at hE
              cases hE
      · intro L hE hne
        simp only [expectedSigLength, Option.bind_eq_bind, Option.bind_eq_some,
          Option.pure_def, Option.some.injEq] at hE
        obtain ⟨iLen, h1, cvLen, h2, sLen, h3, hL⟩ := hE
        simp only [deserializeSignature2, if_neg hshort, hexp, h1, h2, h3]
        rw [if_pos (by omega)]

/-- Witness for C3 at the toy instantiation: a one-byte input whose expected
length (51) differs from its actual length is rejected with 1. -/
theorem C3_length_exactness_witness :
    deserializeSignature2 toyPrims toyParams 20 [0] = some (.error 1) :=
  ((C3_length_exactness toyPrims toyParams 20 [0]).2 [0, 2] [0, 1] (by decide)).2 51
    (by decide) (by decide)

theorem bool_guard_true {b : Bool} (h : ¬((!b) = true)) : b = true := by
  cases b <;> simp_all

theorem bool_guard_and {a b : Bool} (h : ¬((a && !b) = true)) : a = true → b = true := by
  cases a <;> cases b <;> simp_all

/-- Characterization of an accepting `parseAux` run. -/
theorem parseAux_ok (pp : Params) (hasAux : Bool) (s1 : Bytes) (aux s2 : Bytes)
    (h : parseAux pp hasAux s1 = .ok (aux, s2)) :
    aux = (if hasAux then s1.take pp.view_size else List.replicate pp.view_size 0) ∧
      s2 = (if hasAux then s1.drop pp.view_size else s1) ∧
      (hasAux = true →
        arePaddingBitsZero aux pp.view_size (3 * pp.lowmc.r * pp.lowmc.m) = true) := by
  cases hasAux with
  | false =>
    simp only [parseAux] at h
    cases h
    exact ⟨rfl, rfl, fun hx => by cases hx⟩
  | true =>
    simp only [parseAux] at h
    split at h
    · cases h
    · next hg =>
      cases h
      exact ⟨rfl, rfl, fun _ => bool_guard_true hg⟩

/-- Full characterization of an accepting `parseOneProof` run: the fields are
the literal wire slices, the remainder is the stream after the consumed block,
and the padding checks passed. -/
theorem parseOneProof_ok (pp : Params) (hasAux : Bool) (sLen : Nat) (s : Bytes)
    (pr : Proof2) (s' : Bytes) (h : parseOneProof pp hasAux sLen s = .ok (pr, s')) :
    pr.seedInfo = s.take sLen ∧
      pr.aux = (if hasAux then (s.drop sLen).take pp.view_size
                else List.replicate pp.view_size 0) ∧
      pr.input = ((if hasAux then (s.drop sLen).drop pp.view_size
                   else s.drop sLen)).take pp.input_output_size ∧
      pr.msgs = (((if hasAux then (s.drop sLen).drop pp.view_size
                   else s.drop sLen)).drop pp.input_output_size).take pp.view_size ∧
      pr.C = ((((if hasAux then (s.drop sLen).drop pp.view_size
                 else s.drop sLen)).drop pp.input_output_size).drop pp.view_size).take
        pp.digest_size ∧
      pr.unOpenedIndex = 0 ∧
      s' = ((((if hasAux then (s.drop sLen).drop pp.view_size
               else s.drop sLen)).drop pp.input_output_size).drop pp.view_size).drop
        pp.digest_size ∧
      (hasAux = true →
        arePaddingBitsZero pr.aux pp.view_size (3 * pp.lowmc.r * pp.lowmc.m) = true) ∧
      arePaddingBitsZero pr.input pp.input_output_size pp.lowmc.n = true ∧
      arePaddingBitsZero pr.msgs pp.view_size (3 * pp.lowmc.r * pp.lowmc.m) = true := by
  simp only [parseOneProof] at h
  split at h
  · cases h
  · next aux s2 heqA =>
    obtain ⟨ha, hs2, hauxpad⟩ := parseAux_ok pp hasAux _ aux s2 heqA
    split at h
    · cases h
    · next hg2 =>
      split at h
      · cases h
      · next hg3 =>
        cases h
        refine ⟨rfl, ha, ?_, ?_, ?_, rfl, ?_, hauxpad, bool_guard_true hg2,
          bool_guard_true hg3⟩
        · rw [hs2]
        · rw [hs2]
        · rw [hs2]
        · rw [hs2]

/-- The padding facts established by an accepting run of the proof-section
parser, together with the untouched slots. -/
theorem parseProofs_ok_padding (pp : Params) (cC cP : List Nat) (sLen : Nat) :
    ∀ (ts : List Nat) (s : Bytes) (acc res : List (Option Proof2)) (rest : Bytes),
      ts.Nodup → (∀ t ∈ ts, t < acc.length) →
      parseProofs pp cC cP sLen ts s acc = .ok (res, rest) →
      ((∀ t ∈ ts, ∃ pr : Proof2,
          res.getD t none = some pr ∧
          (cP.getD (indexOf cC t) 0 ≠ pp.num_MPC_parties - 1 →
            arePaddingBitsZero pr.aux pp.view_size (3 * pp.lowmc.r * pp.lowmc.m) = true) ∧
          arePaddingBitsZero pr.input pp.input_output_size pp.lowmc.n = true ∧
          arePaddingBitsZero pr.msgs pp.view_size (3 * pp.lowmc.r * pp.lowmc.m) = true) ∧
        (∀ t, t ∉ ts → res.getD t none = acc.getD t none)) := by
  intro ts
  induction ts with
  | nil =>
    intro s acc res rest _ _ hp
    simp only [parseProofs] at hp
    obtain ⟨rfl, rfl⟩ : acc = res ∧ s = rest := by cases hp; exact ⟨rfl, rfl⟩
    exact ⟨by simp, fun t _ => rfl⟩
  | cons t ts' ih =>
    intro s acc res rest hnd hlen hp
    simp only [parseProofs] at hp
    split at hp
    · cases hp
    · next pr s' heq =>
      have hnd' : ts'.Nodup := (List.nodup_cons.mp hnd).2
      have htnotin : t ∉ ts' := (List.nodup_cons.mp hnd).1
      have htlt : t < acc.length := hlen t (List.mem_cons_self t ts')
      have hlen' : ∀ u ∈ ts', u < (acc.set t (some pr)).length := by
        intro u hu
        rw [List.length_set]
        exact hlen u (List.mem_cons_of_mem _ hu)
      obtain ⟨hin, hout⟩ := ih _ _ _ _ hnd' hlen' hp
      obtain ⟨-, -, -, -, -, -, -, hA, hI, hM⟩ := parseOneProof_ok pp _ sLen s pr s' heq
      constructor
      · intro u hu
        rcases List.mem_cons.mp hu with rfl | hu'
        · refine ⟨pr, ?_, fun hne => hA (by simpa using hne), hI, hM⟩
          rw [hout u htnotin, getD_set_self _ _ _ _ htlt]
        · exact hin u hu'
      · intro u hu
        rw [hout u (fun hmem => hu (List.mem_cons_of_mem _ hmem)),
          getD_set_ne _ _ _ _ _
            (fun heq2 => hu (by rw [← heq2]; exact List.mem_cons_self t ts'))]

/-- **C4.** Whatever `deserializeSignature2` accepts has, for every opened
round, zero padding bits in the parsed fields: the aux bits (when present,
i.e. when `challengeP[idxOf t] ≠ N−1`) against `3·r·m`, the input against
`n`, the transcript against `3·r·m`, as decided by `arePaddingBitsZero` on
the last byte of each buffer.  Equivalently, any input whose corresponding
field has a nonzero padding bit is rejected. -/
theorem C4_padding_rejection (P : Prims) (pp : Params) (fuel : Nat) (sigBytes : Bytes)
    (sig : Signature2) (h : deserializeSignature2 P pp fuel sigBytes = some (.ok sig)) :
    ∀ t, contains sig.challengeC t = true →
      ∃ pr : Proof2, sig.proofs.getD t none = some pr ∧
        (sig.challengeP.getD (indexOf sig.challengeC t) 0 ≠ pp.num_MPC_parties - 1 →
          arePaddingBitsZero pr.aux pp.view_size (3 * pp.lowmc.r * pp.lowmc.m) = true) ∧
        arePaddingBitsZero pr.input pp.input_output_size pp.lowmc.n = true ∧
        arePaddingBitsZero pr.msgs pp.view_size (3 * pp.lowmc.r * pp.lowmc.m) = true := by
  intro t hc
  obtain ⟨iLen, cvLen, sLen, rest, -, hexp, -, -, -, -, -, -, -, -, hparse⟩ :=
    deserialize_ok_inv P pp fuel sigBytes sig h
  obtain ⟨-, -, hClt, -, -⟩ := expandChallenge_out P pp fuel _ _ _ hexp
  have htT : t < pp.num_rounds := hClt t (by simpa [contains] using hc)
  have htmem : t ∈ (List.range pp.num_rounds).filter (fun u => contains sig.challengeC u) :=
    List.mem_filter.mpr ⟨List.mem_range.mpr htT, hc⟩
  obtain ⟨hin, -⟩ := parseProofs_ok_padding pp sig.challengeC sig.challengeP sLen _ _ _ _ _
    ((List.nodup_range pp.num_rounds).filter _)
    (fun u hu => by
      rw [List.length_replicate]
      exact List.mem_range.mp (List.mem_filter.mp hu).1)
    hparse
  exact hin t htmem

/-- Witness for C4 at the toy instantiation, on the accepted all-zero byte
string, at opened round 0. -/
theorem C4_padding_rejection_witness :
    ∃ pr : Proof2, toyAcceptedSig.proofs.getD 0 none = some pr ∧
      (toyAcceptedSig.challengeP.getD (indexOf toyAcceptedSig.challengeC 0) 0 ≠
          toyParams.num_MPC_parties - 1 →
        arePaddingBitsZero pr.aux toyParams.view_size
          (3 * toyParams.lowmc.r * toyParams.lowmc.m) = true) ∧
      arePaddingBitsZero pr.input toyParams.input_output_size toyParams.lowmc.n = true ∧
      arePaddingBitsZero pr.msgs toyParams.view_size
        (3 * toyParams.lowmc.r * toyParams.lowmc.m) = true :=
  C4_padding_rejection toyPrims toyParams 20 toyAcceptedBytes toyAcceptedSig (by decide) 0
    (by decide)

/-! ### Serialization lemmas -/

theorem readBytes_length (buf : Bytes) (len : Nat) : (readBytes buf len).length = len := by
  simp [readBytes]

theorem readBytes_of_length (buf : Bytes) (len : Nat) (h : buf.length = len) :
    readBytes buf len = buf := by
  apply List.ext_getElem
  · simp [readBytes, h]
  · intro i h1 h2
    simp only [readBytes, List.getElem_map, List.getElem_range]
    rw [List.getD_eq_getElem _ _ h2]

/-- `parseOneProof` applied to a well-formed wire block followed by arbitrary
trailing bytes: it consumes exactly the block and reproduces the entry with
`unOpenedIndex` reset to 0. -/
theorem parseOneProof_wire (pp : Params) (hasAux : Bool) (pr : Proof2) (tail : Bytes)
    (hauxT : hasAux = true →
      pr.aux.length = pp.view_size ∧
      arePaddingBitsZero pr.aux pp.view_size (3 * pp.lowmc.r * pp.lowmc.m) = true)
    (hauxF : hasAux = false → pr.aux = List.replicate pp.view_size 0)
    (hin : pr.input.length = pp.input_output_size)
    (hinP : arePaddingBitsZero pr.input pp.input_output_size pp.lowmc.n = true)
    (hm : pr.msgs.length = pp.view_size)
    (hmP : arePaddingBitsZero pr.msgs pp.view_size (3 * pp.lowmc.r * pp.lowmc.m) = true)
    (hC : pr.C.length = pp.digest_size) :
    parseOneProof pp hasAux pr.seedInfo.length
      (pr.seedInfo ++ ((if hasAux then pr.aux else []) ++
        (pr.input ++ (pr.msgs ++ (pr.C ++ tail))))) =
      .ok (scrubProof pr, tail) := by
  obtain ⟨se, au, inp, ms, Cc, u⟩ := pr
  simp only at hauxT hauxF hin hinP hm hmP hC
  have h1 := @List.take_left' _ _ (ms ++ (Cc ++ tail)) _ hin
  have h2 := @List.drop_left' _ _ (ms ++ (Cc ++ tail)) _ hin
  have h3 := @List.take_left' _ _ (Cc ++ tail) _ hm
  have h4 := @List.drop_left' _ _ (Cc ++ tail) _ hm
  have h5 := @List.take_left' _ _ tail _ hC
  have h6 := @List.drop_left' _ _ tail _ hC
  cases hasAux with
  | false =>
    have hau : au = List.replicate pp.view_size 0 := hauxF rfl
    show parseOneProof pp false (List.length se) (se ++ (inp ++ (ms ++ (Cc ++ tail)))) = _
    have hA : parseAux pp false (inp ++ (ms ++ (Cc ++ tail))) =
        .ok (List.replicate pp.view_size 0, inp ++ (ms ++ (Cc ++ tail))) := rfl
    simp only [parseOneProof, List.take_left, List.drop_left, hA, h1, h2, hinP, h3, h4, hmP,
      h5, h6, scrubProof, hau]
    rfl
  | true =>
    obtain ⟨hlen, hpad⟩ := hauxT rfl
    show parseOneProof pp true (List.length se) (se ++ (au ++ (inp ++ (ms ++ (Cc ++ tail))))) = _
    have hA : parseAux pp true (au ++ (inp ++ (ms ++ (Cc ++ tail)))) =
        .ok (au, inp ++ (ms ++ (Cc ++ tail))) := by
      simp only [parseAux, List.take_left' hlen, List.drop_left' hlen, hpad]
      rfl
    simp only [parseOneProof, List.take_left, List.drop_left, hA, h1, h2, hinP, h3, h4, hmP,
      h5, h6, scrubProof]
    rfl

/-- The proof-section parser applied to well-formed concatenated wire blocks:
it consumes exactly the blocks, leaves `tail`, and installs every entry with
`unOpenedIndex` reset to 0. -/
theorem parseProofs_wire (pp : Params) (cC cP : List Nat) (sLen : Nat) (prf : Nat → Proof2) :
    ∀ (ts : List Nat) (tail : Bytes) (acc : List (Option Proof2)),
      (∀ t ∈ ts, ProofWire pp cC cP sLen t (prf t)) →
      parseProofs pp cC cP sLen ts
        (ts.flatMap (fun t => wireBlock pp cC cP t (prf t)) ++ tail) acc =
        .ok (ts.foldl (fun a t => a.set t (some (scrubProof (prf t)))) acc, tail) := by
  intro ts
  induction ts with
  | nil =>
    intro tail acc _
    simp [parseProofs]
  | cons t rest ih =>
    intro tail acc hwf
    obtain ⟨hseed, hauxT, hauxF, hin, hinP, hm, hmP, hC⟩ := hwf t (List.mem_cons_self t rest)
    have hone := parseOneProof_wire pp (cP.getD (indexOf cC t) 0 != pp.num_MPC_parties - 1)
      (prf t) (rest.flatMap (fun u => wireBlock pp cC cP u (prf u)) ++ tail)
      hauxT hauxF hin hinP hm hmP hC
    have hstream :
        (t :: rest).flatMap (fun u => wireBlock pp cC cP u (prf u)) ++ tail =
          (prf t).seedInfo ++
            ((if (cP.getD (indexOf cC t) 0 != pp.num_MPC_parties - 1) = true then (prf t).aux
              else []) ++
              ((prf t).input ++ ((prf t).msgs ++ ((prf t).C ++
                (rest.flatMap (fun u => wireBlock pp cC cP u (prf u)) ++ tail))))) := by
      simp [wireBlock, List.append_assoc]
    rw [hstream]
    rw [hseed] at hone
    simp only [parseProofs, hone]
    exact ih tail (acc.set t (some (scrubProof (prf t))))
      (fun u hu => hwf u (List.mem_cons_of_mem _ hu))

/-- Re-serializing the entry an accepting `parseOneProof` produced reproduces
exactly the consumed bytes, provided the stream held a full block. -/
theorem parseOneProof_reserialize (pp : Params) (hasAux : Bool) (sLen : Nat) (s : Bytes)
    (pr : Proof2) (s' : Bytes) (h : parseOneProof pp hasAux sLen s = .ok (pr, s'))
    (hlen : proofBlockLen pp hasAux sLen ≤ s.length) :
    pr.seedInfo ++ ((if hasAux then readBytes pr.aux pp.view_size else []) ++
      (readBytes pr.input pp.input_output_size ++ (readBytes pr.msgs pp.view_size ++
        readBytes pr.C pp.digest_size))) = s.take (proofBlockLen pp hasAux sLen) ∧
    s' = s.drop (proofBlockLen pp hasAux sLen) := by
  obtain ⟨hse, hau, hin, hms, hC, -, hs', -, -, -⟩ :=
    parseOneProof_ok pp hasAux sLen s pr s' h
  cases hasAux with
  | false =>
    simp only [if_neg (by simp : ¬((false : Bool) = true))] at hau hin hms hC hs'
    simp only [proofBlockLen, if_neg (by simp : ¬((false : Bool) = true))] at hlen ⊢
    have e0 : sLen + 0 = sLen := by omega
    rw [e0] at hlen ⊢
    have lin : pr.input.length = pp.input_output_size := by
      rw [hin, List.length_take, List.length_drop]
      omega
    have lms : pr.msgs.length = pp.view_size := by
      rw [hms, List.length_take, List.length_drop, List.length_drop]
      omega
    have lC : pr.C.length = pp.digest_size := by
      rw [hC, List.length_take, List.length_drop, List.length_drop, List.length_drop]
      omega
    rw [readBytes_of_length _ _ lin, readBytes_of_length _ _ lms, readBytes_of_length _ _ lC]
    constructor
    · have hsplit : sLen + pp.input_output_size + pp.view_size + pp.digest_size =
          sLen + (pp.input_output_size + (pp.view_size + pp.digest_size)) := by omega
      rw [hsplit, List.take_add, List.take_add, List.take_add]
      rw [hse, hin, hms, hC, List.drop_drop, List.drop_drop]
      simp [List.nil_append, Nat.add_comm]
    · rw [hs', List.drop_drop, List.drop_drop, List.drop_drop]
      congr 1
      omega
  | true =>
    simp only [if_true] at hau hin hms hC hs' ⊢
    simp only [proofBlockLen, if_true] at hlen ⊢
    have lau : pr.aux.length = pp.view_size := by
      rw [hau, List.length_take, List.length_drop]
      omega
    have lin : pr.input.length = pp.input_output_size := by
      rw [hin, List.length_take, List.length_drop, List.length_drop]
      omega
    have lms : pr.msgs.length = pp.view_size := by
      rw [hms, List.length_take, List.length_drop, List.length_drop, List.length_drop]
      omega
    have lC : pr.C.length = pp.digest_size := by
      rw [hC, List.length_take, List.length_drop, List.length_drop, List.length_drop,
        List.length_drop]
      omega
    rw [readBytes_of_length _ _ lau, readBytes_of_length _ _ lin, readBytes_of_length _ _ lms,
      readBytes_of_length _ _ lC]
    constructor
    · have hsplit : sLen + pp.view_size + pp.input_output_size + pp.view_size + pp.digest_size =
          sLen + (pp.view_size + (pp.input_output_size + (pp.view_size + pp.digest_size))) := by
        omega
      rw [hsplit, List.take_add, List.take_add, List.take_add, List.take_add]
      rw [hse, hau, hin, hms, hC, List.drop_drop, List.drop_drop, List.drop_drop]
    · rw [hs', List.drop_drop, List.drop_drop, List.drop_drop, List.drop_drop]
      congr 1
      omega

theorem foldl_add_shift (g : Nat → Nat) : ∀ (l : List Nat) (a : Nat),
    l.foldl (fun acc t => acc + g t) a = a + l.foldl (fun acc t => acc + g t) 0 := by
  intro l
  induction l with
  | nil => intro a; simp
  | cons x xs ih =>
    intro a
    simp only [List.foldl_cons]
    rw [ih (a + g x), ih (0 + g x)]
    omega

/-- `serializeSignature2`'s per-round block, rewritten right-nested with the
aux condition as the decoder's Boolean test. -/
theorem serializeProofBlock_eq_blockBytes (pp : Params) (cC cP : List Nat) (t : Nat)
    (pr : Proof2) :
    serializeProofBlock pp cC cP t pr =
      pr.seedInfo ++
        ((if (cP.getD (indexOf cC t) 0 != pp.num_MPC_parties - 1) then
            readBytes pr.aux pp.view_size
          else []) ++
          (readBytes pr.input pp.input_output_size ++ (readBytes pr.msgs pp.view_size ++
            readBytes pr.C pp.digest_size))) := by
  unfold serializeProofBlock
  by_cases hc : cP.getD (indexOf cC t) 0 ≠ pp.num_MPC_parties - 1
  · rw [if_pos hc, if_pos (by simpa [bne_iff_ne] using hc)]
    simp [List.append_assoc]
  · rw [if_neg hc, if_neg (by simpa [bne_iff_ne] using hc)]
    simp [List.append_assoc]

/-- Re-serializing the entries an accepting `parseProofs` run produced
reproduces exactly the consumed stream, provided the stream held the full
blocks. -/
theorem parseProofs_reserialize (pp : Params) (cC cP : List Nat) (sLen : Nat) :
    ∀ (ts : List Nat) (s : Bytes) (acc res : List (Option Proof2)) (rest : Bytes),
      ts.Nodup → (∀ t ∈ ts, t < acc.length) →
      parseProofs pp cC cP sLen ts s acc = .ok (res, rest) →
      ts.foldl (fun a t =>
        a + proofBlockLen pp (cP.getD (indexOf cC t) 0 != pp.num_MPC_parties - 1) sLen) 0 ≤
        s.length →
      ts.flatMap (fun t => serializeProofBlock pp cC cP t ((res.getD t none).getD default)) ++
        rest = s ∧
      rest = s.drop (ts.foldl (fun a t =>
        a + proofBlockLen pp (cP.getD (indexOf cC t) 0 != pp.num_MPC_parties - 1) sLen) 0) := by
  intro ts
  induction ts with
  | nil =>
    intro s acc res rest _ _ hp _
    simp only [parseProofs] at hp
    obtain ⟨rfl, rfl⟩ : acc = res ∧ s = rest := by cases hp; exact ⟨rfl, rfl⟩
    simp
  | cons t rest' ih =>
    intro s acc res rest hnd hltacc hp hlen
    simp only [parseProofs] at hp
    split at hp
    · cases hp
    · next pr s' heq =>
      have hnd' : rest'.Nodup := (List.nodup_cons.mp hnd).2
      have htnotin : t ∉ rest' := (List.nodup_cons.mp hnd).1
      have htlt : t < acc.length := hltacc t (List.mem_cons_self t rest')
      have hltacc' : ∀ u ∈ rest', u < (acc.set t (some pr)).length := by
        intro u hu
        rw [List.length_set]
        exact hltacc u (List.mem_cons_of_mem _ hu)
      have hfold : (t :: rest').foldl (fun a u =>
          a + proofBlockLen pp (cP.getD (indexOf cC u) 0 != pp.num_MPC_parties - 1) sLen) 0 =
          proofBlockLen pp (cP.getD (indexOf cC t) 0 != pp.num_MPC_parties - 1) sLen +
            rest'.foldl (fun a u =>
              a + proofBlockLen pp (cP.getD (indexOf cC u) 0 != pp.num_MPC_parties - 1) sLen)
              0 := by
        simp only [List.foldl_cons]
        rw [foldl_add_shift]
        omega
      rw [hfold] at hlen
      have hblock := parseOneProof_reserialize pp _ sLen s pr s' heq (by omega)
      have hs'len : s'.length = s.length -
          proofBlockLen pp (cP.getD (indexOf cC t) 0 != pp.num_MPC_parties - 1) sLen := by
        rw [hblock.2, List.length_drop]
      have hih := ih s' (acc.set t (some pr)) res rest hnd' hltacc' hp (by omega)
      obtain ⟨-, hout⟩ := parseProofs_ok_padding pp cC cP sLen rest' s'
        (acc.set t (some pr)) res rest hnd' hltacc' hp
      have hslot : res.getD t none = some pr := by
        rw [hout t htnotin, getD_set_self _ _ _ _ htlt]
      constructor
      · rw [List.flatMap_cons, List.append_assoc, hih.1, hslot]
        simp only [Option.getD_some]
        rw [serializeProofBlock_eq_blockBytes, hblock.1, hblock.2]
        exact List.take_append_drop _ s
      · rw [hih.2, hblock.2, List.drop_drop, hfold]

theorem foldBytes_eq_foldBlock (pp : Params) (cC cP : List Nat) (sLen : Nat) :
    ∀ (ts : List Nat) (a : Nat),
      ts.foldl (fun acc t =>
        acc + sLen + pp.digest_size + pp.input_output_size + pp.view_size +
          (if cP.getD (indexOf cC t) 0 ≠ pp.num_MPC_parties - 1 then pp.view_size else 0)) a =
      ts.foldl (fun acc t =>
        acc + proofBlockLen pp (cP.getD (indexOf cC t) 0 != pp.num_MPC_parties - 1) sLen) a := by
  intro ts
  induction ts with
  | nil => intro a; rfl
  | cons t rest ih =>
    intro a
    simp only [List.foldl_cons]
    have hstep : a + sLen + pp.digest_size + pp.input_output_size + pp.view_size +
        (if cP.getD (indexOf cC t) 0 ≠ pp.num_MPC_parties - 1 then pp.view_size else 0) =
        a + proofBlockLen pp (cP.getD (indexOf cC t) 0 != pp.num_MPC_parties - 1) sLen := by
      by_cases hc : cP.getD (indexOf cC t) 0 ≠ pp.num_MPC_parties - 1
      · rw [if_pos hc, proofBlockLen, if_pos (bne_iff_ne.mpr hc)]
        omega
      · rw [if_neg hc, proofBlockLen,
          if_neg (by simpa [bne_iff_ne] using hc)]
        omega
    rw [hstep, ih]

/-- Round trip, decode-then-encode: re-serializing whatever
`deserializeSignature2` accepted reproduces the input byte string exactly. -/
theorem deserialize_then_serialize (P : Prims) (pp : Params) (fuel : Nat) (bytes : Bytes)
    (sig : Signature2) (h : deserializeSignature2 P pp fuel bytes = some (.ok sig)) :
    serializeSignature2 pp sig = bytes := by
  obtain ⟨iLen, cvLen, sLen, rest, hge, hexp, hiLen, hcvLen, hsLen, hlen, hch, hsalt,
    hiseed, hcv, hparse⟩ := deserialize_ok_inv P pp fuel bytes sig h
  have hnd : ((List.range pp.num_rounds).filter (fun t => contains sig.challengeC t)).Nodup :=
    (List.nodup_range pp.num_rounds).filter _
  have hbound : ∀ t ∈ (List.range pp.num_rounds).filter (fun t => contains sig.challengeC t),
      t < (List.replicate pp.num_rounds (none : Option Proof2)).length := by
    intro t ht
    rw [List.length_replicate]
    exact List.mem_range.mp (List.mem_filter.mp ht).1
  have hslen : (((bytes.drop (pp.digest_size + SALT_SIZE)).drop iLen).drop cvLen).length =
      bytes.length - (pp.digest_size + SALT_SIZE) - iLen - cvLen := by
    simp only [List.length_drop]
  have hfold := foldBytes_eq_foldBlock pp sig.challengeC sig.challengeP sLen
    ((List.range pp.num_rounds).filter (fun t => contains sig.challengeC t)) 0
  obtain ⟨hflat, hrest⟩ := parseProofs_reserialize pp sig.challengeC sig.challengeP sLen
    _ _ _ _ _ hnd hbound hparse (by omega)
  have hrestnil : rest = [] := by
    rw [hrest]
    apply List.drop_eq_nil_of_le
    omega
  rw [hrestnil, List.append_nil] at hflat
  have hchlen : sig.challenge.length = pp.digest_size := by
    rw [hch, List.length_take]
    omega
  have hsaltlen : sig.salt.length = SALT_SIZE := by
    rw [hsalt, List.length_take, List.length_drop]
    omega
  rw [serializeSignature2, readBytes_of_length _ _ hchlen, readBytes_of_length _ _ hsaltlen]
  rw [hflat, hch, hsalt, hiseed, hcv]
  have step1 : bytes.take pp.digest_size ++ bytes.drop pp.digest_size = bytes :=
    List.take_append_drop _ _
  have step2 : (bytes.drop pp.digest_size).take SALT_SIZE ++
      (bytes.drop pp.digest_size).drop SALT_SIZE = bytes.drop pp.digest_size :=
    List.take_append_drop _ _
  have hdd : (bytes.drop pp.digest_size).drop SALT_SIZE =
      bytes.drop (pp.digest_size + SALT_SIZE) := List.drop_drop _ _ _
  have step3 : (bytes.drop (pp.digest_size + SALT_SIZE)).take iLen ++
      (bytes.drop (pp.digest_size + SALT_SIZE)).drop iLen =
      bytes.drop (pp.digest_size + SALT_SIZE) := List.take_append_drop _ _
  have step4 : ((bytes.drop (pp.digest_size + SALT_SIZE)).drop iLen).take cvLen ++
      ((bytes.drop (pp.digest_size + SALT_SIZE)).drop iLen).drop cvLen =
      (bytes.drop (pp.digest_size + SALT_SIZE)).drop iLen := List.take_append_drop _ _
  calc bytes.take pp.digest_size ++ (bytes.drop pp.digest_size).take SALT_SIZE ++
        (bytes.drop (pp.digest_size + SALT_SIZE)).take iLen ++
        ((bytes.drop (pp.digest_size + SALT_SIZE)).drop iLen).take cvLen ++
        ((bytes.drop (pp.digest_size + SALT_SIZE)).drop iLen).drop cvLen
      = bytes.take pp.digest_size ++ ((bytes.drop pp.digest_size).take SALT_SIZE ++
        ((bytes.drop (pp.digest_size + SALT_SIZE)).take iLen ++
        (((bytes.drop (pp.digest_size + SALT_SIZE)).drop iLen).take cvLen ++
        ((bytes.drop (pp.digest_size + SALT_SIZE)).drop iLen).drop cvLen))) := by
        simp [List.append_assoc]
    _ = bytes := by
        rw [step4, step3, ← hdd, step2, step1]

theorem flatMap_congr {α β : Type} (f g : α → List β) :
    ∀ l : List α, (∀ x ∈ l, f x = g x) → l.flatMap f = l.flatMap g := by
  intro l
  induction l with
  | nil => intro _; rfl
  | cons x xs ih =>
    intro h
    simp only [List.flatMap_cons]
    rw [h x (List.mem_cons_self x xs), ih (fun y hy => h y (List.mem_cons_of_mem _ hy))]

/-- Under per-round well-formedness, the serializer's block is the wire
block. -/
theorem serializeProofBlock_eq_wire (pp : Params) (cC cP : List Nat) (sLen : Nat) (t : Nat)
    (pr : Proof2) (h : ProofWire pp cC cP sLen t pr) :
    serializeProofBlock pp cC cP t pr = wireBlock pp cC cP t pr := by
  obtain ⟨-, hauxT, -, hin, -, hm, -, hC⟩ := h
  rw [serializeProofBlock_eq_blockBytes, wireBlock]
  rw [readBytes_of_length _ _ hin, readBytes_of_length _ _ hm, readBytes_of_length _ _ hC]
  cases hb : cP.getD (indexOf cC t) 0 != pp.num_MPC_parties - 1 with
  | false => simp only [hb, Bool.false_eq_true, if_false]
  | true =>
    simp only [hb, if_true]
    rw [readBytes_of_length _ _ (hauxT hb).1]

theorem wireBlock_length (pp : Params) (cC cP : List Nat) (sLen : Nat) (t : Nat) (pr : Proof2)
    (h : ProofWire pp cC cP sLen t pr) :
    (wireBlock pp cC cP t pr).length =
      proofBlockLen pp (cP.getD (indexOf cC t) 0 != pp.num_MPC_parties - 1) sLen := by
  obtain ⟨hse, hauxT, -, hin, -, hm, -, hC⟩ := h
  simp only [wireBlock, proofBlockLen, List.length_append]
  cases hb : cP.getD (indexOf cC t) 0 != pp.num_MPC_parties - 1 with
  | false =>
    simp only [hb, Bool.false_eq_true, if_false]
    rw [hse, hin, hm, hC]
    simp only [List.length_nil]
    omega
  | true =>
    simp only [hb, if_true]
    rw [hse, hin, hm, hC, (hauxT hb).1]
    omega

theorem flat_wire_length (pp : Params) (cC cP : List Nat) (sLen : Nat) (prf : Nat → Proof2) :
    ∀ ts : List Nat, (∀ t ∈ ts, ProofWire pp cC cP sLen t (prf t)) →
      (ts.flatMap (fun t => wireBlock pp cC cP t (prf t))).length =
        ts.foldl (fun a t =>
          a + proofBlockLen pp (cP.getD (indexOf cC t) 0 != pp.num_MPC_parties - 1) sLen) 0 := by
  intro ts
  induction ts with
  | nil => intro _; rfl
  | cons t rest ih =>
    intro h
    simp only [List.flatMap_cons, List.length_append, List.foldl_cons]
    rw [ih (fun u hu => h u (List.mem_cons_of_mem _ hu)),
      wireBlock_length pp cC cP sLen t (prf t) (h t (List.mem_cons_self t rest))]
    conv_rhs => rw [foldl_add_shift]
    omega

theorem foldl_set_length {α : Type} (f : Nat → α) :
    ∀ (ts : List Nat) (init : List α),
      (ts.foldl (fun a t => a.set t (f t)) init).length = init.length := by
  intro ts
  induction ts with
  | nil => intro init; rfl
  | cons t rest ih =>
    intro init
    simp only [List.foldl_cons]
    rw [ih, List.length_set]

theorem foldl_set_getD {α : Type} (f : Nat → α) :
    ∀ (ts : List Nat) (init : List α) (d : α), ts.Nodup → (∀ t ∈ ts, t < init.length) →
      ∀ u, (ts.foldl (fun a t => a.set t (f t)) init).getD u d =
        if u ∈ ts then f u else init.getD u d := by
  intro ts
  induction ts with
  | nil =>
    intro init d _ _ u
    simp
  | cons t rest ih =>
    intro init d hnd hlt u
    simp only [List.foldl_cons]
    rw [ih (init.set t (f t)) d (List.nodup_cons.mp hnd).2
      (fun v hv => by rw [List.length_set]; exact hlt v (List.mem_cons_of_mem _ hv)) u]
    by_cases hur : u ∈ rest
    · rw [if_pos hur, if_pos (List.mem_cons_of_mem _ hur)]
    · rw [if_neg hur]
      by_cases hut : u = t
      · subst hut
        rw [if_pos (List.mem_cons_self u rest),
          getD_set_self _ _ _ _ (hlt u (List.mem_cons_self u rest))]
      · rw [getD_set_ne _ _ _ _ _ (fun he => hut he.symm),
          if_neg (by simp [hut, hur])]

/-- Round trip, encode-then-decode: deserializing the serialization of a
well-formed signature succeeds and reproduces the structure, with every
proof's `unOpenedIndex` reset to the deserializer's default 0. -/
theorem serialize_then_deserialize (P : Prims) (pp : Params) (fuel : Nat) (sig : Signature2)
    (hwf : WellFormedSig P pp fuel sig) :
    deserializeSignature2 P pp fuel (serializeSignature2 pp sig) =
      some (.ok (scrubSig sig)) := by
  obtain ⟨hch, hsalt, hexp, hiLen, hcvLen, hsLenSome, hplen, hiff, hper⟩ := hwf
  obtain ⟨sLen, hsLen⟩ := Option.isSome_iff_exists.mp hsLenSome
  have hwire : ∀ t ∈ (List.range pp.num_rounds).filter (fun t => contains sig.challengeC t),
      ProofWire pp sig.challengeC sig.challengeP sLen t
        ((sig.proofs.getD t none).getD default) := by
    intro t ht
    have htT : t < pp.num_rounds := List.mem_range.mp (List.mem_filter.mp ht).1
    have hcont : contains sig.challengeC t = true := (List.mem_filter.mp ht).2
    obtain ⟨hsl, hin, hm, hC, hinP, hmP, haux⟩ := hper t htT hcont
    refine ⟨?_, ?_, ?_, hin, hinP, hm, hmP, hC⟩
    · rw [hsLen] at hsl
      exact (Option.some_inj.mp hsl).symm
    · intro hb
      have hne : sig.challengeP.getD (indexOf sig.challengeC t) 0 ≠ pp.num_MPC_parties - 1 :=
        bne_iff_ne.mp hb
      rw [if_pos hne] at haux
      exact haux
    · intro hb
      have heq : ¬sig.challengeP.getD (indexOf sig.challengeC t) 0 ≠ pp.num_MPC_parties - 1 := by
        simpa [bne_iff_ne] using hb
      rw [if_neg heq] at haux
      exact haux
  have hser : serializeSignature2 pp sig =
      sig.challenge ++ (sig.salt ++ (sig.iSeedInfo ++ (sig.cvInfo ++
        ((List.range pp.num_rounds).filter (fun t => contains sig.challengeC t)).flatMap
          (fun t => wireBlock pp sig.challengeC sig.challengeP t
            ((sig.proofs.getD t none).getD default))))) := by
    rw [serializeSignature2, readBytes_of_length _ _ hch, readBytes_of_length _ _ hsalt]
    rw [flatMap_congr _ _ _
      (fun t ht => serializeProofBlock_eq_wire pp sig.challengeC sig.challengeP sLen t _
        (hwire t ht))]
    simp [List.append_assoc]
  have hflatlen := flat_wire_length pp sig.challengeC sig.challengeP sLen
    (fun t => (sig.proofs.getD t none).getD default)
    ((List.range pp.num_rounds).filter (fun t => contains sig.challengeC t)) hwire
  have hlen : (serializeSignature2 pp sig).length =
      pp.digest_size + SALT_SIZE + sig.iSeedInfo.length + sig.cvInfo.length +
        ((List.range pp.num_rounds).filter (fun t => contains sig.challengeC t)).foldl
          (fun a t =>
            a + proofBlockLen pp
              (sig.challengeP.getD (indexOf sig.challengeC t) 0 != pp.num_MPC_parties - 1)
              sLen) 0 := by
    rw [hser]
    simp only [List.length_append, hch, hsalt, hflatlen]
    omega
  have htake : (serializeSignature2 pp sig).take pp.digest_size = sig.challenge := by
    rw [hser]
    exact List.take_left' hch
  have hsalt2 : ((serializeSignature2 pp sig).drop pp.digest_size).take SALT_SIZE = sig.salt := by
    rw [hser, List.drop_left' hch]
    exact List.take_left' hsalt
  have hdrop : (serializeSignature2 pp sig).drop (pp.digest_size + SALT_SIZE) =
      sig.iSeedInfo ++ (sig.cvInfo ++
        ((List.range pp.num_rounds).filter (fun t => contains sig.challengeC t)).flatMap
          (fun t => wireBlock pp sig.challengeC sig.challengeP t
            ((sig.proofs.getD t none).getD default))) := by
    rw [hser,
      show sig.challenge ++ (sig.salt ++ (sig.iSeedInfo ++ (sig.cvInfo ++
          ((List.range pp.num_rounds).filter (fun t => contains sig.challengeC t)).flatMap
            (fun t => wireBlock pp sig.challengeC sig.challengeP t
              ((sig.proofs.getD t none).getD default))))) =
        (sig.challenge ++ sig.salt) ++ (sig.iSeedInfo ++ (sig.cvInfo ++
          ((List.range pp.num_rounds).filter (fun t => contains sig.challengeC t)).flatMap
            (fun t => wireBlock pp sig.challengeC sig.challengeP t
              ((sig.proofs.getD t none).getD default)))) from by simp [List.append_assoc]]
    exact List.drop_left' (by simp [hch, hsalt])
  have hparse := parseProofs_wire pp sig.challengeC sig.challengeP sLen
    (fun t => (sig.proofs.getD t none).getD default)
    ((List.range pp.num_rounds).filter (fun t => contains sig.challengeC t)) []
    (List.replicate pp.num_rounds none) hwire
  rw [List.append_nil] at hparse
  have hproofs : ((List.range pp.num_rounds).filter (fun t => contains sig.challengeC t)).foldl
      (fun a t => a.set t (some (scrubProof ((sig.proofs.getD t none).getD default))))
      (List.replicate pp.num_rounds (none : Option Proof2)) =
      sig.proofs.map (Option.map scrubProof) := by
    apply List.ext_getElem
    · rw [foldl_set_length, List.length_replicate, List.length_map, hplen]
    · intro u h1 h2
      have huT : u < pp.num_rounds := by
        rwa [foldl_set_length, List.length_replicate] at h1

      rw [← List.getD_eq_getElem _ none h1, ← List.getD_eq_getElem _ none h2]
      rw [foldl_set_getD _ _ _ _ ((List.nodup_range pp.num_rounds).filter _)
        (fun v hv => by
          rw [List.length_replicate]
          exact List.mem_range.mp (List.mem_filter.mp hv).1)]
      have hmapD : (sig.proofs.map (Option.map scrubProof)).getD u none =
          Option.map scrubProof (sig.proofs.getD u none) := by
        rw [List.getD_eq_getElem _ none (by rw [List.length_map, hplen]; exact huT),
          List.getElem_map, List.getD_eq_getElem _ none (by rw [hplen]; exact huT)]
      rw [hmapD]
      by_cases hu : u ∈ (List.range pp.num_rounds).filter (fun t => contains sig.challengeC t)
      · rw [if_pos hu]
        have hcont : contains sig.challengeC u = true := (List.mem_filter.mp hu).2
        obtain ⟨pr, hpr⟩ :=
          Option.isSome_iff_exists.mp ((hiff u huT).mp hcont)
        rw [hpr]
        simp
      · rw [if_neg hu]
        have hcont : ¬contains sig.challengeC u = true := by
          intro hc
          exact hu (List.mem_filter.mpr ⟨List.mem_range.mpr huT, hc⟩)
        have hnone : sig.proofs.getD u none = none := by
          by_contra hne
          exact hcont ((hiff u huT).mpr (Option.isSome_iff_ne_none.mpr hne))
        rw [hnone]
        simp
  have hshort : ¬(serializeSignature2 pp sig).length < pp.digest_size + SALT_SIZE := by omega
  have hfoldeq := foldBytes_eq_foldBlock pp sig.challengeC sig.challengeP sLen
    ((List.range pp.num_rounds).filter (fun t => contains sig.challengeC t)) 0
  have hlenok : ¬((serializeSignature2 pp sig).length ≠
      pp.digest_size + SALT_SIZE + sig.iSeedInfo.length + sig.cvInfo.length +
        ((List.range pp.num_rounds).filter (fun t => contains sig.challengeC t)).foldl
          (fun acc t =>
            acc + sLen + pp.digest_size + pp.input_output_size + pp.view_size +
              (if sig.challengeP.getD (indexOf sig.challengeC t) 0 ≠ pp.num_MPC_parties - 1 then
                pp.view_size
               else 0)) 0) := by
    rw [hfoldeq]
    omega
  simp only [deserializeSignature2, if_neg hshort, htake, hexp, hiLen, hcvLen, hsLen,
    if_neg hlenok, hdrop, hsalt2, List.take_left, List.drop_left, hparse, hproofs]
  rfl

/-- Counterexample to C2 as stated: `toyCexSig` is a well-formed signature
structure whose round 0 proof records `unOpenedIndex = 5`, but
`deserializeSignature2` of its serialization yields a structure with
`unOpenedIndex = 0` — `unOpenedIndex` is not on the wire and the deserializer
never writes it. -/
theorem C2_roundtrip_counterexample :
    WellFormedSig toyPrims toyParams 20 toyCexSig ∧
    deserializeSignature2 toyPrims toyParams 20 (serializeSignature2 toyParams toyCexSig) =
      some (.ok toyAcceptedSig) ∧
    ((toyCexSig.proofs.getD 0 none).getD default).unOpenedIndex = 5 ∧
    ((toyAcceptedSig.proofs.getD 0 none).getD default).unOpenedIndex = 0 ∧
    deserializeSignature2 toyPrims toyParams 20 (serializeSignature2 toyParams toyCexSig) ≠
      some (.ok toyCexSig) := by
  decide

/-- **C2 (amended).** Serialization round trip: deserializing the
serialization of any well-formed signature structure reconstructs the
structure — challenge, salt, `iSeedInfo`, `cvInfo`, and for every opened
round the proof fields `seedInfo`, `aux` when present, `input`, `msgs`, `C` —
except that every proof's `unOpenedIndex`, which is never written to the
wire, comes back as the deserializer's default 0; and re-serializing the
structure parsed from any accepted byte string reproduces the byte string
exactly. -/
theorem C2_serialization_roundtrip (P : Prims) (pp : Params) (fuel : Nat) :
    (∀ sig, WellFormedSig P pp fuel sig →
      deserializeSignature2 P pp fuel (serializeSignature2 pp sig) =
        some (.ok (scrubSig sig))) ∧
    (∀ bytes sig, deserializeSignature2 P pp fuel bytes = some (.ok sig) →
      serializeSignature2 pp sig = bytes) :=
  ⟨fun sig h => serialize_then_deserialize P pp fuel sig h,
   fun bytes sig h => deserialize_then_serialize P pp fuel bytes sig h⟩

/-- Witness for C2 (amended) at the toy instantiation. -/
theorem C2_serialization_roundtrip_witness :
    deserializeSignature2 toyPrims toyParams 20 (serializeSignature2 toyParams toyCexSig) =
      some (.ok (scrubSig toyCexSig)) ∧
    serializeSignature2 toyParams toyAcceptedSig = toyAcceptedBytes :=
  ⟨(C2_serialization_roundtrip toyPrims toyParams 20).1 toyCexSig (by decide),
   (C2_serialization_roundtrip toyPrims toyParams 20).2 toyAcceptedBytes toyAcceptedSig
     (by decide)⟩

theorem serializeProofBlock_length (pp : Params) (cC cP : List Nat) (t : Nat) (pr : Proof2) :
    (serializeProofBlock pp cC cP t pr).length =
      pr.seedInfo.length +
        (if cP.getD (indexOf cC t) 0 ≠ pp.num_MPC_parties - 1 then pp.view_size else 0) +
        (pp.digest_size + pp.input_output_size + pp.view_size) := by
  by_cases hc : cP.getD (indexOf cC t) 0 ≠ pp.num_MPC_parties - 1
  · simp only [serializeProofBlock, if_pos hc, List.length_append, readBytes_length]
    omega
  · simp only [serializeProofBlock, if_neg hc, List.length_append, readBytes_length,
      List.length_nil]
    omega

theorem fold_required_eq (pp : Params) (sig : Signature2) :
    ∀ (ts : List Nat) (a : Nat),
      ts.foldl (fun acc t =>
        acc + ((sig.proofs.getD t none).getD default).seedInfo.length +
          (if sig.challengeP.getD (indexOf sig.challengeC t) 0 ≠ pp.num_MPC_parties - 1 then
            pp.view_size
           else 0) +
          (pp.digest_size + pp.input_output_size + pp.view_size)) a =
      a + (ts.flatMap (fun t => serializeProofBlock pp sig.challengeC sig.challengeP t
        ((sig.proofs.getD t none).getD default))).length := by
  intro ts
  induction ts with
  | nil => intro a; simp
  | cons t rest ih =>
    intro a
    simp only [List.foldl_cons, List.flatMap_cons, List.length_append]
    rw [ih, serializeProofBlock_length]
    omega

/-- **C8.** Structural aux presence: the serializer writes the `aux` field of
an opened round's proof exactly when `challengeP[idxOf t] ≠ N−1`, the byte
length computation counts `view_size` for it exactly under that condition
(so the serialized bytes always measure `required_signature_size`), and the
deserializer consumes (and padding-checks) a `view_size`-byte `aux` field
exactly under that condition, leaving the allocation default otherwise. -/
theorem C8_aux_presence (pp : Params) (sig : Signature2) :
    (serializeSignature2 pp sig).length = required_signature_size pp sig ∧
    (∀ t pr,
      (sig.challengeP.getD (indexOf sig.challengeC t) 0 ≠ pp.num_MPC_parties - 1 →
        serializeProofBlock pp sig.challengeC sig.challengeP t pr =
          pr.seedInfo ++ readBytes pr.aux pp.view_size ++
            readBytes pr.input pp.input_output_size ++ readBytes pr.msgs pp.view_size ++
            readBytes pr.C pp.digest_size) ∧
      (sig.challengeP.getD (indexOf sig.challengeC t) 0 = pp.num_MPC_parties - 1 →
        serializeProofBlock pp sig.challengeC sig.challengeP t pr =
          pr.seedInfo ++ readBytes pr.input pp.input_output_size ++
            readBytes pr.msgs pp.view_size ++ readBytes pr.C pp.digest_size)) ∧
    (∀ (hasAux : Bool) (sLen : Nat) (s : Bytes) (pr : Proof2) (s' : Bytes),
      parseOneProof pp hasAux sLen s = .ok (pr, s') →
      s' = s.drop (proofBlockLen pp hasAux sLen) ∧
      (hasAux = true →
        pr.aux = (s.drop sLen).take pp.view_size ∧
        arePaddingBitsZero pr.aux pp.view_size (3 * pp.lowmc.r * pp.lowmc.m) = true) ∧
      (hasAux = false → pr.aux = List.replicate pp.view_size 0)) := by
  refine ⟨?_, ?_, ?_⟩
  · simp only [serializeSignature2, required_signature_size, List.length_append,
      readBytes_length]
    rw [fold_required_eq]
    omega
  · intro t pr
    constructor
    · intro hc
      simp only [serializeProofBlock, if_pos hc]
    · intro hc
      simp only [serializeProofBlock]
      rw [if_neg (not_ne_iff.mpr hc), List.append_nil]
  · intro hasAux sLen s pr s' h
    obtain ⟨-, hau, -, -, -, -, hs', hpadT, -, -⟩ := parseOneProof_ok pp hasAux sLen s pr s' h
    refine ⟨?_, ?_, ?_⟩
    · rw [hs']
      cases hasAux with
      | false =>
        simp only [if_neg (by simp : ¬((false : Bool) = true))]
        rw [List.drop_drop, List.drop_drop, List.drop_drop]
        congr 1
        simp [proofBlockLen]
        omega
      | true =>
        simp only [if_true]
        rw [List.drop_drop, List.drop_drop, List.drop_drop, List.drop_drop]
        congr 1
        simp [proofBlockLen]
        omega
    · intro hb
      subst hb
      exact ⟨by simpa using hau, hpadT rfl⟩
    · intro hb
      subst hb
      simpa using hau

theorem C8_aux_presence_witness :
    toyAcceptedSig.challengeP.getD (indexOf toyAcceptedSig.challengeC 0) 0 ≠
      toyParams.num_MPC_parties - 1 ∧
    serializeProofBlock toyParams toyAcceptedSig.challengeC toyAcceptedSig.challengeP 0
        ⟨[0, 0, 0], [0], [0], [0], [0], 0⟩ =
      [0, 0, 0] ++ readBytes [0] toyParams.view_size ++
        readBytes [0] toyParams.input_output_size ++ readBytes [0] toyParams.view_size ++
        readBytes [0] toyParams.digest_size :=
  ⟨by decide,
   ((C8_aux_presence toyParams toyAcceptedSig).2.1 0 ⟨[0, 0, 0], [0], [0], [0], [0], 0⟩).1
     (by decide)⟩

/-- Every opened slot written by an accepting run of the proof-section loop
holds a proof whose seed opening has exactly the loop's single precomputed
length `sLen`, provided the stream is long enough for all blocks. -/
theorem parseProofs_seedlen (pp : Params) (cC cP : List Nat) (sLen : Nat) :
    ∀ (ts : List Nat) (s : Bytes) (acc res : List (Option Proof2)) (rest : Bytes),
      ts.Nodup → (∀ t ∈ ts, t < acc.length) →
      parseProofs pp cC cP sLen ts s acc = .ok (res, rest) →
      ts.foldl (fun a t =>
        a + proofBlockLen pp (cP.getD (indexOf cC t) 0 != pp.num_MPC_parties - 1) sLen) 0 ≤
        s.length →
      ∀ t ∈ ts, ∃ pr : Proof2, res.getD t none = some pr ∧ pr.seedInfo.length = sLen := by
  intro ts
  induction ts with
  | nil =>
    intro s acc res rest _ _ _ _ u hu
    simp at hu
  | cons t rest' ih =>
    intro s acc res rest hnd hltacc hp hlen u hu
    simp only [parseProofs] at hp
    split at hp
    · cases hp
    · next pr s' heq =>
      have hnd' : rest'.Nodup := (List.nodup_cons.mp hnd).2
      have htnotin : t ∉ rest' := (List.nodup_cons.mp hnd).1
      have htlt : t < acc.length := hltacc t (List.mem_cons_self t rest')
      have hltacc' : ∀ v ∈ rest', v < (acc.set t (some pr)).length := by
        intro v hv
        rw [List.length_set]
        exact hltacc v (List.mem_cons_of_mem _ hv)
      have hfold : (t :: rest').foldl (fun a v =>
          a + proofBlockLen pp (cP.getD (indexOf cC v) 0 != pp.num_MPC_parties - 1) sLen) 0 =
          proofBlockLen pp (cP.getD (indexOf cC t) 0 != pp.num_MPC_parties - 1) sLen +
            rest'.foldl (fun a v =>
              a + proofBlockLen pp (cP.getD (indexOf cC v) 0 != pp.num_MPC_parties - 1) sLen)
              0 := by
        simp only [List.foldl_cons]
        rw [foldl_add_shift]
        omega
      rw [hfold] at hlen
      have hblock := parseOneProof_reserialize pp _ sLen s pr s' heq (by omega)
      have hs'len : s'.length = s.length -
          proofBlockLen pp (cP.getD (indexOf cC t) 0 != pp.num_MPC_parties - 1) sLen := by
        rw [hblock.2, List.length_drop]
      rcases List.mem_cons.mp hu with hut | hurest
      · subst hut
        obtain ⟨-, hout⟩ := parseProofs_ok_padding pp cC cP sLen rest' s'
          (acc.set u (some pr)) res rest hnd' hltacc' hp
        refine ⟨pr, ?_, ?_⟩
        · rw [hout u htnotin, getD_set_self _ _ _ _ htlt]
        · obtain ⟨hse, -, -, -, -, -, -, -, -, -⟩ := parseOneProof_ok pp _ sLen s pr s' heq
          have hble : sLen ≤
              proofBlockLen pp (cP.getD (indexOf cC u) 0 != pp.num_MPC_parties - 1) sLen := by
            simp only [proofBlockLen]
            split <;> omega
          rw [hse, List.length_take]
          omega
      · exact ih s' (acc.set t (some pr)) res rest hnd' hltacc' hp (by omega) u hurest

/-- **C10.** Uniform opening size: the decoder computes one seed-opening
length `sLen = revealSeedsSize(N, \x7b0\x7d, 1)` and every opened round of an
accepted signature carries exactly `sLen` bytes of `seedInfo`; and whenever
the seed primitives satisfy the length contract and `revealSeedsSize` for one
hidden leaf is independent of the hidden leaf's index, the signer's proof —
which reveals with the actual hidden party index — also has a `seedInfo` of
exactly `sLen` bytes, so the decoder's single length matches the signer. -/
theorem C10_uniform_opening_size (P : Prims) (pp : Params) (fuel : Nat) (bytes : Bytes)
    (sig : Signature2) (h : deserializeSignature2 P pp fuel bytes = some (.ok sig)) :
    (∃ sLen, P.revealSeedsSize pp.num_MPC_parties [0] 1 = some sLen ∧
      ∀ t ∈ (List.range pp.num_rounds).filter (fun t => contains sig.challengeC t),
        ∃ pr : Proof2, sig.proofs.getD t none = some pr ∧ pr.seedInfo.length = sLen) ∧
    (∀ (fuel2 : Nat) (skey pkey ptext msg : Bytes) (cC cP : List Nat) (t sLen : Nat),
      let c : SignCtx := ⟨P, pp, fuel2, skey, pkey, ptext, msg⟩
      (∀ v < pp.num_MPC_parties,
        (P.revealSeeds pp.num_MPC_parties (c.iSeeds.getD t []) c.salt t [v]).length =
          (P.revealSeedsSize pp.num_MPC_parties [v] 1).getD 0) →
      (∀ v < pp.num_MPC_parties,
        P.revealSeedsSize pp.num_MPC_parties [v] 1 =
          P.revealSeedsSize pp.num_MPC_parties [0] 1) →
      cP.getD (indexOf cC t) 0 < pp.num_MPC_parties →
      P.revealSeedsSize pp.num_MPC_parties [0] 1 = some sLen →
      (c.proof cC cP t).seedInfo.length = sLen) := by
  constructor
  · obtain ⟨iLen, cvLen, sLen, rest, hge, hexp, hiLen, hcvLen, hsLen, hlen, hch, hsalt,
      hiseed, hcv, hparse⟩ := deserialize_ok_inv P pp fuel bytes sig h
    refine ⟨sLen, hsLen, ?_⟩
    have hnd : ((List.range pp.num_rounds).filter
        (fun t => contains sig.challengeC t)).Nodup :=
      (List.nodup_range pp.num_rounds).filter _
    have hbound : ∀ t ∈ (List.range pp.num_rounds).filter
        (fun t => contains sig.challengeC t),
        t < (List.replicate pp.num_rounds (none : Option Proof2)).length := by
      intro t ht
      rw [List.length_replicate]
      exact List.mem_range.mp (List.mem_filter.mp ht).1
    have hslen : (((bytes.drop (pp.digest_size + SALT_SIZE)).drop iLen).drop cvLen).length =
        bytes.length - (pp.digest_size + SALT_SIZE) - iLen - cvLen := by
      simp only [List.length_drop]
    have hfold := foldBytes_eq_foldBlock pp sig.challengeC sig.challengeP sLen
      ((List.range pp.num_rounds).filter (fun t => contains sig.challengeC t)) 0
    exact parseProofs_seedlen pp sig.challengeC sig.challengeP sLen _ _ _ _ _ hnd hbound
      hparse (by omega)
  · intro fuel2 skey pkey ptext msg cC cP t sLen c h1 h2 hu h3
    show (P.revealSeeds pp.num_MPC_parties
        ((SignCtx.iSeeds ⟨P, pp, fuel2, skey, pkey, ptext, msg⟩).getD t [])
        (SignCtx.salt ⟨P, pp, fuel2, skey, pkey, ptext, msg⟩) t
        [cP.getD (indexOf cC t) 0]).length = sLen
    rw [h1 _ hu, h2 _ hu, h3]
    rfl

theorem C10_uniform_opening_size_witness :
    (∃ sLen, toyPrims.revealSeedsSize toyParams.num_MPC_parties [0] 1 = some sLen ∧
      ∀ t ∈ (List.range toyParams.num_rounds).filter
          (fun t => contains toyAcceptedSig.challengeC t),
        ∃ pr : Proof2, toyAcceptedSig.proofs.getD t none = some pr ∧
          pr.seedInfo.length = sLen) ∧
    (SignCtx.proof ⟨toyPrims, toyParams, 20, [1], [2], [3], [5]⟩ [0, 2] [0, 1] 0).seedInfo.length
      = 3 :=
  ⟨(C10_uniform_opening_size toyPrims toyParams 20 toyAcceptedBytes toyAcceptedSig
      (by decide)).1,
   (C10_uniform_opening_size toyPrims toyParams 20 toyAcceptedBytes toyAcceptedSig
      (by decide)).2 20 [1] [2] [3] [5] [0, 2] [0, 1] 0 3
     (by decide) (by decide) (by decide) (by decide)⟩

/-! ### Return-value lemmas for the verification API -/

theorem parseAux_error (pp : Params) (hasAux : Bool) (s1 : Bytes) (e : Int)
    (h : parseAux pp hasAux s1 = .error e) : e = -1 := by
  cases hasAux with
  | false => simp [parseAux] at h
  | true =>
    simp only [parseAux] at h
    split at h
    · simp only [Except.error.injEq] at h
      omega
    · cases h

theorem parseOneProof_error (pp : Params) (hasAux : Bool) (sLen : Nat) (s : Bytes) (e : Int)
    (h : parseOneProof pp hasAux sLen s = .error e) : e = -1 := by
  simp only [parseOneProof] at h
  split at h
  · next e' heq =>
    simp only [Except.error.injEq] at h
    have := parseAux_error pp hasAux _ e' heq
    omega
  · split at h
    · simp only [Except.error.injEq] at h
      omega
    · split at h
      · simp only [Except.error.injEq] at h
        omega
      · cases h

theorem parseProofs_error (pp : Params) (cC cP : List Nat) (sLen : Nat) :
    ∀ (ts : List Nat) (s : Bytes) (acc : List (Option Proof2)) (e : Int),
      parseProofs pp cC cP sLen ts s acc = .error e → e = -1 := by
  intro ts
  induction ts with
  | nil =>
    intro s acc e h
    simp [parseProofs] at h
  | cons t rest ih =>
    intro s acc e h
    simp only [parseProofs] at h
    split at h
    · next e' heq =>
      simp only [Except.error.injEq] at h
      have := parseOneProof_error pp _ sLen s e' heq
      omega
    · next pr s' heq =>
      exact ih s' (acc.set t (some pr)) e h

/-- The only error codes `deserializeSignature2` produces are `EXIT_FAILURE = 1`
(length and `SIZE_MAX` failures) and −1 (padding failures). -/
theorem deserialize_error_values (P : Prims) (pp : Params) (fuel : Nat) (bytes : Bytes)
    (e : Int) (h : deserializeSignature2 P pp fuel bytes = some (.error e)) :
    e = 1 ∨ e = -1 := by
  simp only [deserializeSignature2] at h
  split at h
  · simp only [Option.some.injEq, Except.error.injEq] at h
    omega
  · split at h
    · cases h
    · split at h
      · simp only [Option.some.injEq, Except.error.injEq] at h
        omega
      · split at h
        · simp only [Option.some.injEq, Except.error.injEq] at h
          omega
        · split at h
          · simp only [Option.some.injEq, Except.error.injEq] at h
            omega
          · split at h
            · simp only [Option.some.injEq, Except.error.injEq] at h
              omega
            · split at h
              · next e' heq =>
                simp only [Option.some.injEq, Except.error.injEq] at h
                have := parseProofs_error pp _ _ _ _ _ _ e' heq
                omega
              · simp at h

/-- `verify_picnic3` only ever returns 0 (accept) or −1 (reject). -/
theorem verify_picnic3_values (P : Prims) (pp : Params) (fuel : Nat) (sig : Signature2)
    (pubKey plaintext message : Bytes) (r : Int)
    (h : verify_picnic3 P pp fuel sig pubKey plaintext message = some r) :
    r = 0 ∨ r = -1 := by
  simp only [verify_picnic3] at h
  split at h
  · simp only [Option.some.injEq] at h
    omega
  · split at h
    · split at h
      · simp only [Option.some.injEq] at h
        omega
      · split at h
        · simp only [Option.some.injEq] at h
          omega
        · split at h
          · cases h
          · simp only [Option.some.injEq] at h
            split at h <;> omega
    · simp only [Option.some.injEq] at h
      omega

/-- **C7.** (corrected) `impl_verify_picnic3` returns 0 exactly on acceptance
and every failure returns a nonzero code — but the rejection code is NOT one
and the same for every failure kind: deserialization length and `SIZE_MAX`
failures return `EXIT_FAILURE = 1`, while every other failure (padding,
seed-tree reconstruction, online simulation, Merkle mismatch, challenge
mismatch) returns −1, so the caller can distinguish the two classes. -/
theorem C7_single_reject_return (P : Prims) (pp : Params) (fuel : Nat)
    (plaintext pubKey message sigBytes : Bytes) (r : Int)
    (h : impl_verify_picnic3 P pp fuel plaintext pubKey message sigBytes = some r) :
    (r = 0 ∨ r = 1 ∨ r = -1) ∧
    (r = 0 ↔ ∃ sig, deserializeSignature2 P pp fuel sigBytes = some (.ok sig) ∧
      verify_picnic3 P pp fuel sig pubKey plaintext message = some 0) ∧
    (r = 1 → deserializeSignature2 P pp fuel sigBytes = some (.error 1)) := by
  simp only [impl_verify_picnic3] at h
  split at h
  · cases h
  · next e heq =>
    simp only [Option.some.injEq] at h
    subst h
    have he := deserialize_error_values P pp fuel sigBytes e heq
    refine ⟨by omega, ⟨fun h0 => absurd h0 (by omega), ?_⟩, fun h1 => ?_⟩
    · rintro ⟨sig, hds, -⟩
      rw [heq] at hds
      simp at hds
    · rw [heq, h1]
  · next sig heq =>
    have hv := verify_picnic3_values P pp fuel sig pubKey plaintext message r h
    refine ⟨by omega, ⟨fun h0 => ⟨sig, heq, h0 ▸ h⟩, ?_⟩, fun h1 => absurd h1 (by omega)⟩
    rintro ⟨sig', hds', hv'⟩
    rw [heq] at hds'
    simp only [Option.some.injEq, Except.ok.injEq] at hds'
    subst hds'
    rw [h] at hv'
    simp only [Option.some.injEq] at hv'
    omega

theorem C7_single_reject_counterexample :
    impl_verify_picnic3 toyPrims toyParams 20 [3] [2] [5] [0] = some 1 ∧
    impl_verify_picnic3 toyPrims toyParams 20 [3] [2] [5]
        ((List.replicate 51 0).set 41 128) = some (-1) ∧
    (1 : Int) ≠ 0 ∧ (-1 : Int) ≠ 0 ∧ (1 : Int) ≠ -1 := by decide

theorem C7_single_reject_return_witness :
    ((1 : Int) = 0 ∨ (1 : Int) = 1 ∨ (1 : Int) = -1) ∧
    ((1 : Int) = 0 ↔ ∃ sig, deserializeSignature2 toyPrims toyParams 20 [0] =
        some (.ok sig) ∧
      verify_picnic3 toyPrims toyParams 20 sig [2] [3] [5] = some 0) ∧
    ((1 : Int) = 1 → deserializeSignature2 toyPrims toyParams 20 [0] = some (.error 1)) :=
  C7_single_reject_return toyPrims toyParams 20 [3] [2] [5] [0] 1 (by decide)

/-- **C9.** Signing is deterministic: the salt and root seed are derived by
hashing `privateKey ‖ message ‖ pubKey ‖ plaintext ‖ (n as u16 LE)` — the salt
is the first `SALT_SIZE` bytes of the squeeze and the root seed the remaining
`seed_size` bytes — and `sign` consumes no external entropy (it is a function
of the key material, message and parameters alone), so two invocations of
`impl_sign_picnic3` on identical inputs produce identical signature bytes and
identical signature lengths. -/
theorem C9_sign_determinism (P : Prims) (pp : Params) (fuel : Nat)
    (privateKey pubKey plaintext message : Bytes) (sigBufLen : Nat) :
    (∀ c : SignCtx, c.P = P → c.pp = pp → c.privateKey = privateKey →
      c.pubKey = pubKey → c.plaintext = plaintext → c.message = message →
      c.saltAndRoot = fitBytes (pp.seed_size + SALT_SIZE)
        (P.hash pp.digest_size
          (readBytes privateKey pp.input_output_size ++ message ++
            readBytes pubKey pp.input_output_size ++
            readBytes plaintext pp.input_output_size ++ u16le pp.lowmc.n)
          (pp.seed_size + SALT_SIZE)) ∧
      c.salt = readBytes c.saltAndRoot SALT_SIZE ∧
      c.rootSeed = c.saltAndRoot.drop SALT_SIZE) ∧
    (∀ sk2 pk2 pt2 msg2 : Bytes, sk2 = privateKey → pk2 = pubKey → pt2 = plaintext →
      msg2 = message →
      impl_sign_picnic3 P pp fuel pt2 sk2 pk2 msg2 sigBufLen =
        impl_sign_picnic3 P pp fuel plaintext privateKey pubKey message sigBufLen) := by
  constructor
  · intro c hP hpp hsk hpk hpt hmsg
    obtain ⟨cP, cpp, cfuel, csk, cpk, cpt, cmsg⟩ := c
    simp only at hP hpp hsk hpk hpt hmsg
    subst hP hpp hsk hpk hpt hmsg
    exact ⟨rfl, rfl, rfl⟩
  · intro sk2 pk2 pt2 msg2 hsk hpk hpt hmsg
    subst hsk hpk hpt hmsg
    rfl

theorem C9_sign_determinism_witness :
    impl_sign_picnic3 toyPrims toyParams 20 [3] [1] [2] [5] 64 =
      impl_sign_picnic3 toyPrims toyParams 20 [3] [1] [2] [5] 64 :=
  (C9_sign_determinism toyPrims toyParams 20 [1] [2] [3] [5] 64).2 [1] [2] [3] [5]
    rfl rfl rfl rfl

/-- **C1.** Correctness of sign-then-verify: for every key triple and message
on which the delegated primitives satisfy their contracts along the honest
trace — every round's online simulation succeeds, `expandChallenge`
terminates, the seed-tree reconstruction of the revealed openings, the
per-round recomputation, the online re-simulation and the Merkle check of
`cvInfo` reproduce the signer's commitments so that the verifier's recomputed
challenge hash equals the signed one (these are exactly the guarantees of
`lowmc_compute_aux`, `simulateOnline` and the tree primitives for
`pubKey = LowMC(privateKey, plaintext)`) — signing succeeds, and verifying
the produced signature bytes with the same `pubKey`, `plaintext` and
`message` returns 0. -/
theorem C1_sign_verify_correct (P : Prims) (pp : Params) (fuel : Nat)
    (privateKey pubKey plaintext message : Bytes) (sigBufLen : Nat)
    (c : SignCtx) (s : Signature2) (cC cP : List Nat) (iLeavesV : List Bytes)
    (cvV : List (Option Bytes)) (rootV : Bytes)
    (hc : c = ⟨P, pp, fuel, privateKey, pubKey, plaintext, message⟩)
    (hs : s = scrubSig (c.sig cC cP))
    (h_sim : (List.range pp.num_rounds).all (fun t => (c.simResult t).isSome) = true)
    (h_exp : expandChallenge P pp fuel c.challenge = some (cC, cP))
    (h_buf : required_signature_size pp (c.sig cC cP) ≤ sigBufLen)
    (h_wf : WellFormedSig P pp fuel (c.sig cC cP))
    (h_rec : reconstructLeaves P pp pp.num_rounds s.challengeC s.iSeedInfo s.salt 0 =
      some iLeavesV)
    (h_all : (List.range pp.num_rounds).all
      (fun t => (verifyRound P pp s iLeavesV t).isSome) = true)
    (h_online : verifyOnlineLoop P pp s pubKey plaintext
        (fun t => ((verifyRound P pp s iLeavesV t).getD default).1)
        (List.range pp.num_opened_rounds) (msgs0 pp)
        (List.replicate pp.num_rounds none) = some cvV)
    (h_merkle : P.merkleCheck pp.num_rounds cvV s.salt (getMissingLeavesList s.challengeC pp)
        s.cvInfo = some rootV)
    (h_hcp : HCP P pp ((List.range pp.num_rounds).map (fun t =>
        commit_h P pp ((verifyRound P pp s iLeavesV t).getD default).2))
        rootV s.salt pubKey plaintext message = c.challenge) :
    impl_sign_picnic3 P pp fuel plaintext privateKey pubKey message sigBufLen =
      some (.ok (serializeSignature2 pp (c.sig cC cP),
        required_signature_size pp (c.sig cC cP))) ∧
    impl_verify_picnic3 P pp fuel plaintext pubKey message
      (serializeSignature2 pp (c.sig cC cP)) = some 0 := by
  subst hc hs
  have hsign : sign_picnic3 P pp fuel privateKey pubKey plaintext message =
      some (.ok (SignCtx.sig ⟨P, pp, fuel, privateKey, pubKey, plaintext, message⟩ cC cP)) := by
    simp only [sign_picnic3]
    rw [if_pos h_sim, h_exp]
  have himplsign : impl_sign_picnic3 P pp fuel plaintext privateKey pubKey message sigBufLen =
      some (.ok (serializeSignature2 pp
          (SignCtx.sig ⟨P, pp, fuel, privateKey, pubKey, plaintext, message⟩ cC cP),
        required_signature_size pp
          (SignCtx.sig ⟨P, pp, fuel, privateKey, pubKey, plaintext, message⟩ cC cP))) := by
    simp only [impl_sign_picnic3, hsign]
    rw [if_neg (by omega)]
  refine ⟨himplsign, ?_⟩
  have hdes := serialize_then_deserialize P pp fuel
    (SignCtx.sig ⟨P, pp, fuel, privateKey, pubKey, plaintext, message⟩ cC cP) h_wf
  have hchRead : readBytes
      (scrubSig (SignCtx.sig ⟨P, pp, fuel, privateKey, pubKey, plaintext, message⟩
        cC cP)).challenge pp.digest_size =
      SignCtx.challenge ⟨P, pp, fuel, privateKey, pubKey, plaintext, message⟩ :=
    readBytes_of_length _ _ h_wf.1
  simp only [impl_verify_picnic3, hdes, verify_picnic3, h_rec]
  rw [if_pos h_all]
  simp only [h_online, h_merkle]
  rw [h_hcp]
  simp only [h_exp]
  rw [if_pos hchRead]

set_option maxRecDepth 100000 in
theorem C1_sign_verify_correct_witness :
    impl_sign_picnic3 toyPrims toyParams 20 [3] [1] [2] [5] 64 =
      some (.ok (serializeSignature2 toyParams
          (SignCtx.sig ⟨toyPrims, toyParams, 20, [1], [2], [3], [5]⟩ [2, 3] [0, 0]),
        required_signature_size toyParams
          (SignCtx.sig ⟨toyPrims, toyParams, 20, [1], [2], [3], [5]⟩ [2, 3] [0, 0]))) ∧
    impl_verify_picnic3 toyPrims toyParams 20 [3] [2] [5]
      (serializeSignature2 toyParams
        (SignCtx.sig ⟨toyPrims, toyParams, 20, [1], [2], [3], [5]⟩ [2, 3] [0, 0])) = some 0 :=
  C1_sign_verify_correct toyPrims toyParams 20 [1] [2] [3] [5] 64
    ⟨toyPrims, toyParams, 20, [1], [2], [3], [5]⟩
    (scrubSig (SignCtx.sig ⟨toyPrims, toyParams, 20, [1], [2], [3], [5]⟩ [2, 3] [0, 0]))
    [2, 3] [0, 0] [[189], [190], [0], [0]] [none, none, some [20], some [20]] [231]
    rfl rfl (by decide) (by decide) (by decide) (by decide) (by decide) (by decide)
    (by decide) (by decide) (by decide)

end Picnic3

